import Mathlib

/-!
# Verification of `logic_parser.cpp`

A shallow embedding of the propositional-logic parser / CNF converter in
`src/logic_parser.cpp`, together with proofs about its specification.

Modelling conventions:
* C++ `Node*` (a nullable owning pointer) is modelled as `Option Node`;
  `Node` holds the `value` string and the two child pointers.  The rewriting
  passes mutate nodes in place but use each subtree linearly, so they are
  embedded as pure functions returning the rewritten tree.
* `std::string` is modelled as `String`; character classification mirrors the
  ASCII behaviour of `isalnum` / `isspace`.
* `unordered_map<string,bool>` is modelled as a lookup function
  `String → Option Bool`; `map.at` throwing for a missing key is modelled by
  propagating `none`.
* A site where the C++ would dereference a null pointer (undefined
  behaviour) is totalised in a way noted at that site; every theorem that
  depends on such a site carries a well-formedness hypothesis keeping the
  modelled execution away from it.
-/

namespace LogicParser

/-- Embeds `struct Node`: a `value` (operator or atom) plus nullable left and
right child pointers. -/
inductive Node : Type where
  | mk (value : String) (left : Option Node) (right : Option Node)

/-- `node->value`. -/
def Node.value : Node → String
  | ⟨v, _, _⟩ => v

/-- `node->left`. -/
def Node.left : Node → Option Node
  | ⟨_, l, _⟩ => l

/-- `node->right`. -/
def Node.right : Node → Option Node
  | ⟨_, _, r⟩ => r

/-- Embeds `isOperator`: the four recognised operator strings. -/
def isOperator (s : String) : Bool :=
  s = "*" || s = "+" || s = ">" || s = "~"

/-- Embeds `precedence`: NOT(3) > AND(2) > OR(1) > IMPLIES(0), `-1` otherwise. -/
def precedence (op : String) : Int :=
  if op = "~" then 3
  else if op = "*" then 2
  else if op = "+" then 1
  else if op = ">" then 0
  else -1

/-- C `isspace` for the ASCII execution character set. -/
def isSpaceChar (c : Char) : Bool :=
  c = ' ' || c = '\t' || c = '\n' || c = '\x0b' || c = '\x0c' || c = '\r'

/-- C `isalnum` for the ASCII execution character set. -/
def isAlnumChar (c : Char) : Bool :=
  c.isAlpha || c.isDigit

/-- A character that continues an atom token: `isalnum(c) || c == '_'`. -/
def isAtomChar (c : Char) : Bool :=
  isAlnumChar c || c = '_'

/-- A list suffix is no longer than the list (used for termination). -/
theorem length_dropWhile_le (p : Char → Bool) (l : List Char) :
    (l.dropWhile p).length ≤ l.length := by
  induction l with
  | nil => simp [List.dropWhile]
  | cons c cs ih =>
    by_cases h : p c
    · simpa [List.dropWhile, h] using Nat.le_succ_of_le ih
    · simp [List.dropWhile, h]

/-- Embeds the scanning loop of `tokenize` over the remaining characters.
Whitespace is skipped; a run starting at an alphanumeric character is
collected while `isalnum(c) || c == '_'` holds; any other character becomes a
single-character token.  (The special `">"` branch of the C++ code behaves
identically to the generic single-character branch.) -/
def tokenizeGo : List Char → List String
  | [] => []
  | c :: cs =>
    if isSpaceChar c then tokenizeGo cs
    else if isAlnumChar c then
      String.mk (c :: cs.takeWhile isAtomChar) :: tokenizeGo (cs.dropWhile isAtomChar)
    else
      String.mk [c] :: tokenizeGo cs
termination_by cs => cs.length
decreasing_by
  · simp
  · exact Nat.lt_succ_of_le (length_dropWhile_le isAtomChar cs)
  · simp

/-- Embeds `tokenize`. -/
def tokenize (expr : String) : List String :=
  tokenizeGo expr.data

/-- The parenthesis swap performed by `infixToPrefix` on the reversed token
sequence. -/
def swapPar (t : String) : String :=
  if t = "(" then ")" else if t = ")" then "(" else t

/-- `isalnum(token[0])`; for an empty token `token[0]` is the null character,
which is not alphanumeric. -/
def firstCharAlnum (t : String) : Bool :=
  match t.data with
  | [] => false
  | c :: _ => isAlnumChar c

/-- One iteration of the shunting-yard loop inside `infixToPrefix`, acting on
the state `(ops, output)`.  Atom-like tokens go to the output; `"("` is
pushed; `")"` pops operators until a `"("` (popping the `"("` itself when
present); an operator pops while the top of the stack has strictly greater
precedence; any other token is dropped (no `else` branch in the source). -/
def shuntStep : List String × List String → String → List String × List String
  | (ops, output), token =>
    if firstCharAlnum token then (ops, output ++ [token])
    else if token = "(" then (token :: ops, output)
    else if token = ")" then
      let popped := ops.takeWhile (fun s => s != "(")
      let rest := ops.dropWhile (fun s => s != "(")
      (rest.drop 1, output ++ popped)
    else if isOperator token then
      let popped := ops.takeWhile (fun s => precedence s > precedence token)
      let rest := ops.dropWhile (fun s => precedence s > precedence token)
      (token :: rest, output ++ popped)
    else (ops, output)

/-- Embeds `infixToPrefix`: reverse the tokens, swap parentheses, run the
shunting-yard pass, flush the remaining operator stack onto the output
(including any `"("` still on it), and reverse the result. -/
def infixToPrefixTokens (expr : String) : List String :=
  let toks := ((tokenize expr).reverse).map swapPar
  let st := toks.foldl shuntStep ([], [])
  (st.2 ++ st.1).reverse

/-- One iteration of the `buildParseTree` loop (the tokens are scanned from
last to first; the C++ early `return nullptr` is modelled by an absorbing
`none` state).  `~` pops one subtree as the left child; a binary operator
pops the left child first, then the right child. -/
def buildStep (st : Option (List Node)) (token : String) : Option (List Node) :=
  match st with
  | none => none
  | some st =>
    if isOperator token then
      if token = "~" then
        match st with
        | top :: rest => some (⟨token, some top, none⟩ :: rest)
        | [] => none
      else
        match st with
        | a :: b :: rest => some (⟨token, some a, some b⟩ :: rest)
        | _ => none
    else some (⟨token, none, none⟩ :: st)

/-- Embeds `buildParseTree`: fold over the tokens from last to first; at the
end exactly one subtree must remain, otherwise no tree is returned. -/
def buildParseTree (tokens : List String) : Option Node :=
  match tokens.reverse.foldl buildStep (some []) with
  | some [t] => some t
  | _ => none

/-- Embeds `evaluate`: look an atom up in the assignment (`map.at` throwing
for a missing key is modelled by `none`), apply `~`, `*`, `+`, `>` with the
C++ short-circuit order (the left operand is always evaluated first and the
right operand only when needed), and return `false` for an internal node
whose value is not a recognised operator.  Calling the C++ function on a null
pointer would dereference it; that is modelled as `none`. -/
def evaluate : Option Node → (String → Option Bool) → Option Bool
  | none, _ => none
  | some ⟨v, none, none⟩, values => values v
  | some ⟨v, l, r⟩, values =>
    if v = "~" then
      match evaluate l values with
      | none => none
      | some a => some (!a)
    else if v = "*" then
      match evaluate l values with
      | none => none
      | some a => if a then evaluate r values else some false
    else if v = "+" then
      match evaluate l values with
      | none => none
      | some a => if a then some true else evaluate r values
    else if v = ">" then
      match evaluate l values with
      | none => none
      | some a => if a then evaluate r values else some true
    else some false

/-- Embeds `evaluateNode`, the verbatim duplicate of `evaluate` used by the
truth-table generator. -/
def evaluateNode : Option Node → (String → Option Bool) → Option Bool
  | none, _ => none
  | some ⟨v, none, none⟩, values => values v
  | some ⟨v, l, r⟩, values =>
    if v = "~" then
      match evaluateNode l values with
      | none => none
      | some a => some (!a)
    else if v = "*" then
      match evaluateNode l values with
      | none => none
      | some a => if a then evaluateNode r values else some false
    else if v = "+" then
      match evaluateNode l values with
      | none => none
      | some a => if a then some true else evaluateNode r values
    else if v = ">" then
      match evaluateNode l values with
      | none => none
      | some a => if a then evaluateNode r values else some true
    else some false

/-- Total semantics of a tree under a total assignment; helper used to relate
`evaluate` before and after the CNF passes (it follows the structure of
`evaluate`, with `false` at the places where the C++ code fails). -/
def semO : Option Node → (String → Bool) → Bool
  | none, _ => false
  | some ⟨v, none, none⟩, w => w v
  | some ⟨v, l, r⟩, w =>
    if v = "~" then !semO l w
    else if v = "*" then semO l w && semO r w
    else if v = "+" then semO l w || semO r w
    else if v = ">" then !semO l w || semO r w
    else false

/-- The atoms inserted into the `std::set` by `collectAtoms`, in traversal
order (current node if it is a non-operator leaf, then the left subtree, then
the right subtree). -/
def collectAtomsList : Option Node → List String
  | none => []
  | some ⟨v, none, none⟩ => if isOperator v then [] else [v]
  | some ⟨_, l, r⟩ => collectAtomsList l ++ collectAtomsList r

/-- `std::set<string>::insert` on the sorted list of current elements. -/
def insSorted (a : String) : List String → List String
  | [] => [a]
  | b :: bs =>
    if a < b then a :: b :: bs
    else if a = b then b :: bs
    else b :: insSorted a bs

/-- Embeds `collectAtoms` together with the `set → vector` copy in
`generateTruthTable`: the distinct atoms of the tree in ascending order. -/
def collectAtoms (root : Option Node) : List String :=
  (collectAtomsList root).foldl (fun s a => insSorted a s) []

/-- Truth value of the `j`-th atom (of `n`) in the `i`-th row:
`(i >> (n - j - 1)) & 1` of the C++ code. -/
def rowBit (i n j : Nat) : Bool :=
  (i >>> (n - j - 1)) &&& 1 == 1

/-- Embeds `int total = 1 << n;`: the C++ `int` is 32 bits wide, so the
shifted bit pattern is `2^n mod 2^32`, read back as a signed two's-complement
value.  For `n ≤ 30` this is `2^n`; for `n = 31` it is the negative value
`-2^31` (the wrap mandated since C++20; overflow before that); for `n ≥ 32`
the C++ shift is undefined behaviour, totalised here by the same
wrap-the-pattern reading (which gives `0`) — every row-count theorem
therefore carries the bound `n ≤ 30`. -/
def totalRows (n : Nat) : Int :=
  if 2 ^ n % 2 ^ 32 < 2 ^ 31 then ((2 ^ n % 2 ^ 32 : Nat) : Int)
  else ((2 ^ n % 2 ^ 32 : Nat) : Int) - 2 ^ 32

/-- Embeds the table computed by `generateTruthTable` (printing is modelled
by returning the rows): one row per loop iteration `i ∈ [0, total)` where
`total` is the wrapped `int` value `1 << n` (so no iterations at all when
`total ≤ 0`), each row pairing the per-atom truth values with the evaluation
result; no rows for a tree without atoms. -/
def generateTruthTable (root : Node) : List (List Bool × Option Bool) :=
  let atoms := collectAtoms (some root)
  let n := atoms.length
  if n = 0 then []
  else
    (List.range (totalRows n).toNat).map fun i =>
      let assignment : String → Option Bool := fun a =>
        (atoms.indexOf? a).map fun j => rowBit i n j
      (((List.range n).map fun j => rowBit i n j), evaluateNode (some root) assignment)

/-- An OR chain over the given atom names (concrete truth-table input). -/
def orChain : List String → Node
  | [] => ⟨"p", none, none⟩
  | [a] => ⟨a, none, none⟩
  | a :: rest => ⟨"+", some ⟨a, none, none⟩, some (orChain rest)⟩

/-- Thirty-one distinct atom names: a well-formed input whose atom count
exceeds the shift range of the C++ 32-bit `int`. -/
def atoms31 : List String :=
  ["x01", "x02", "x03", "x04", "x05", "x06", "x07", "x08", "x09", "x10",
   "x11", "x12", "x13", "x14", "x15", "x16", "x17", "x18", "x19", "x20",
   "x21", "x22", "x23", "x24", "x25", "x26", "x27", "x28", "x29", "x30",
   "x31"]

/-- Embeds `eliminateImplications`: rewrite children first, then turn
`A > B` into `(~A) + B`. -/
def eliminateImplications : Option Node → Option Node
  | none => none
  | some ⟨v, none, none⟩ => some ⟨v, none, none⟩
  | some ⟨v, l, r⟩ =>
    let l' := eliminateImplications l
    let r' := eliminateImplications r
    if v = ">" then some ⟨"+", some ⟨"~", l', none⟩, r'⟩
    else some ⟨v, l', r'⟩

/-- Embeds `moveNegations`: `~~A → A`, De Morgan on `~(A+B)` and `~(A*B)`,
`~` over anything else left untouched, recursion into the children of
non-negation nodes.  A `~` node whose left child is null returns null in the
C++ code (`if (!child) return nullptr`). -/
def moveNegations : Option Node → Option Node
  | none => none
  | some ⟨v, none, none⟩ => some ⟨v, none, none⟩
  | some ⟨"~", some ⟨"~", cl, _⟩, _⟩ => moveNegations cl
  | some ⟨"~", some ⟨"+", cl, cr⟩, _⟩ =>
    some ⟨"*", moveNegations (some ⟨"~", cl, none⟩), moveNegations (some ⟨"~", cr, none⟩)⟩
  | some ⟨"~", some ⟨"*", cl, cr⟩, _⟩ =>
    some ⟨"+", moveNegations (some ⟨"~", cl, none⟩), moveNegations (some ⟨"~", cr, none⟩)⟩
  | some ⟨"~", some c, r⟩ => some ⟨"~", some c, r⟩
  | some ⟨"~", none, _⟩ => none
  | some ⟨v, l, r⟩ => some ⟨v, moveNegations l, moveNegations r⟩

/-- The OR-over-AND distribution applied by `distributeOrOverAnd` to a node
`A + B` whose children are already distributed.  In the C++ code this is
`distributeOrOverAnd(new Node("+", ..., ...))`: that call first re-runs the
pass on the two children, which are already outputs of the pass and are left
unchanged by it (`distributeOrOverAnd_fix` below), so only the distribution
step remains; `distOr` is exactly that step.  The C++ reads `A->value`
(respectively `B->value`) without a null check; a null `A` (or `B`) simply
fails the pattern here. -/
def distOr : Option Node → Option Node → Node
  | some ⟨"*", al, ar⟩, b => ⟨"*", some (distOr al b), some (distOr ar b)⟩
  | a, some ⟨"*", bl, br⟩ => ⟨"*", some (distOr a bl), some (distOr a br)⟩
  | a, b => ⟨"+", a, b⟩

/-- Embeds `distributeOrOverAnd`: rewrite children first, then distribute OR
over AND at a `+` node (left `*` child first, otherwise right `*` child,
otherwise leave the node). -/
def distributeOrOverAnd : Option Node → Option Node
  | none => none
  | some ⟨v, none, none⟩ => some ⟨v, none, none⟩
  | some ⟨v, l, r⟩ =>
    let l' := distributeOrOverAnd l
    let r' := distributeOrOverAnd r
    if v = "+" then some (distOr l' r') else some ⟨v, l', r'⟩

/-- Embeds `convertToCNF`: implication elimination, then negation normal
form, then OR-over-AND distribution. -/
def convertToCNF (root : Option Node) : Option Node :=
  distributeOrOverAnd (moveNegations (eliminateImplications root))

/-- A tree (with all its subtrees) on which `distributeOrOverAnd` is the
identity; outputs of the pass have this shape, which is what makes the inner
`distributeOrOverAnd(new Node("+", ..., ...))` calls of the C++ code
equivalent to `distOr`. -/
def distStable : Option Node → Prop
  | none => True
  | some ⟨v, l, r⟩ =>
    distributeOrOverAnd (some ⟨v, l, r⟩) = some ⟨v, l, r⟩ ∧ distStable l ∧ distStable r

/-- Embeds `getLiterals`: walk the OR-chain; a `~` node contributes
`"~" + node->left->value` (the C++ dereferences `node->left` without a null
check; a null left child is modelled as contributing the bare `"~"` string),
any other node contributes its value. -/
def getLiterals : Option Node → List String
  | none => []
  | some ⟨"+", l, r⟩ => getLiterals l ++ getLiterals r
  | some ⟨"~", l, _⟩ =>
    ["~" ++ (match l with | some c => c.value | none => "")]
  | some ⟨v, _, _⟩ => [v]

/-- Embeds `collectClauses`: recurse through the AND-chain; any non-`*` node
is one clause. -/
def collectClauses : Option Node → List (List String)
  | none => []
  | some ⟨"*", l, r⟩ => collectClauses l ++ collectClauses r
  | some t => [getLiterals (some t)]

/-- The negation computed inside `analyzeCNFValidity`: strip a leading `~`,
otherwise prepend one.  (`literal[0]` of an empty `std::string` is the null
character, so an empty literal gets `~` prepended, as here.) -/
def negationOf (literal : String) : String :=
  match literal.data with
  | '~' :: rest => String.mk rest
  | _ => "~" ++ literal

/-- The per-clause loop of `analyzeCNFValidity`: scan the literals left to
right, keeping the set of literals seen so far; report a tautology as soon as
the negation of the current literal has been seen. -/
def clauseTautoGo : List String → List String → Bool
  | [], _ => false
  | lit :: rest, seen =>
    if negationOf lit ∈ seen then true
    else clauseTautoGo rest (lit :: seen)

/-- Whether `analyzeCNFValidity` classifies one clause as tautological. -/
def clauseIsTautology (clause : List String) : Bool :=
  clauseTautoGo clause []

/-- Embeds `analyzeCNFValidity`: overall verdict (`invalid_count == 0`),
count of tautological clauses and count of non-tautological clauses. -/
def analyzeCNFValidity (clauses : List (List String)) : Bool × Nat × Nat :=
  let valid := (clauses.filter fun c => clauseIsTautology c).length
  let invalid := (clauses.filter fun c => !clauseIsTautology c).length
  (invalid == 0, valid, invalid)

/-! ## Specification-side predicates -/

/-- A well-formed parse tree, following the spec's data model: a leaf holds a
non-operator value; a `~` node has exactly a left child; a binary node
(`*`, `+` or `>`) has both children. -/
def wfB : Option Node → Bool
  | none => false
  | some ⟨v, none, none⟩ => !isOperator v
  | some ⟨"~", some l, none⟩ => wfB (some l)
  | some ⟨v, some l, some r⟩ =>
    (v = "*" || v = "+" || v = ">") && wfB (some l) && wfB (some r)
  | _ => false

/-- No `>` node occurs in the tree. -/
def noImp : Option Node → Bool
  | none => true
  | some ⟨v, l, r⟩ => (v != ">") && noImp l && noImp r

/-- An atom leaf: no children and a non-operator value. -/
def isAtomLeaf : Option Node → Bool
  | some ⟨v, none, none⟩ => !isOperator v
  | _ => false

/-- The NNF structural invariant: every `~` node has an atom leaf as its only
child. -/
def isNNF : Option Node → Bool
  | none => true
  | some ⟨"~", l, r⟩ => isAtomLeaf l && r.isNone
  | some ⟨_, l, r⟩ => isNNF l && isNNF r

/-- A literal tree: an atom leaf or `~` directly over an atom leaf. -/
def isLitTree : Node → Bool
  | ⟨v, none, none⟩ => !isOperator v
  | ⟨"~", some ⟨a, none, none⟩, none⟩ => !isOperator a
  | _ => false

/-- A clause tree: an OR-chain of literal trees. -/
def isClauseTree : Node → Bool
  | ⟨"+", some l, some r⟩ => isClauseTree l && isClauseTree r
  | t => isLitTree t

/-- A CNF tree: an AND-chain of clause trees. -/
def isCNFTree : Node → Bool
  | ⟨"*", some l, some r⟩ => isCNFTree l && isCNFTree r
  | t => isClauseTree t

/-- A literal string that denotes an atom: nonempty and not starting with
`~`. -/
def isAtomStr (s : String) : Bool :=
  match s.data with
  | [] => false
  | c :: _ => c != '~'

/-- A well-formed literal string: an atom, or `~` followed by an atom. -/
def isLiteralStr (s : String) : Bool :=
  match s.data with
  | '~' :: rest => isAtomStr (String.mk rest)
  | _ => isAtomStr s

/-- Stack-size evolution of the tree-building scan, written from the claim:
an atom pushes, `~` needs one operand, a binary operator needs two (netting
one pop); `none` records that some operator could not pop its operands. -/
def buildCountStep (st : Option Nat) (token : String) : Option Nat :=
  match st with
  | none => none
  | some k =>
    if isOperator token then
      if token = "~" then
        if 1 ≤ k then some k else none
      else
        if 2 ≤ k then some (k - 1) else none
    else some (k + 1)

/-- The claim's failure condition for `buildParseTree`: scanning the prefix
tokens from last to first, some operator cannot pop its required operands, or
the final stack holds other than exactly one subtree. -/
def buildFailSpec (tokens : List String) : Bool :=
  match tokens.reverse.foldl buildCountStep (some 0) with
  | none => true
  | some k => k != 1

/-- One step of the specification tokenizer (written from the amended claim):
the state is the finished tokens plus the pending atom run.  Inside a run, an
alphanumeric-or-underscore character extends it and anything else ends it;
outside a run, whitespace is skipped, an alphanumeric character starts a run,
and any other character (including `_`) is its own single-character token. -/
def tokenizeSpecStep : List String × Option (List Char) → Char → List String × Option (List Char)
  | (acc, some run), c =>
    if isAtomChar c then (acc, some (run ++ [c]))
    else if isSpaceChar c then (acc ++ [String.mk run], none)
    else (acc ++ [String.mk run, String.mk [c]], none)
  | (acc, none), c =>
    if isSpaceChar c then (acc, none)
    else if isAlnumChar c then (acc, some [c])
    else (acc ++ [String.mk [c]], none)

/-- Emit the pending atom run of the specification tokenizer, if any. -/
def tokenizeFlush : List String × Option (List Char) → List String
  | (acc, none) => acc
  | (acc, some run) => acc ++ [String.mk run]

/-- The specification tokenizer: fold `tokenizeSpecStep` over the characters
and flush the pending run. -/
def tokenizeSpec (expr : String) : List String :=
  tokenizeFlush (expr.data.foldl tokenizeSpecStep ([], none))

/-- The tokens still to be produced by the specification tokenizer from the
remaining characters, given the pending run (used to relate it to
`tokenize`). -/
def tokenizeResidual : Option (List Char) → List Char → List String
  | none, cs => tokenizeGo cs
  | some run, cs =>
    String.mk (run ++ cs.takeWhile isAtomChar) :: tokenizeGo (cs.dropWhile isAtomChar)

/-! ## Theorems -/

/-- `isOperator` unpacked into the four inequalities. -/
theorem isOperator_eq_false {v : String} (h : isOperator v = false) :
    v ≠ "*" ∧ v ≠ "+" ∧ v ≠ ">" ∧ v ≠ "~" := by
  simp only [isOperator, Bool.or_eq_false_iff, decide_eq_false_iff_not] at h
  exact ⟨h.1.1.1, h.1.1.2, h.1.2, h.2⟩

/-- C10: for every tree node that has at least one child but whose value is
none of the four operators `~`, `*`, `+`, `>`, both `evaluate` and its
duplicate `evaluateNode` return `false` regardless of the assignment, rather
than signalling an error. -/
theorem c10_evaluate_unknown_op_false (v : String) (l r : Option Node)
    (values : String → Option Bool) (hop : isOperator v = false)
    (hchild : l.isSome ∨ r.isSome) :
    evaluate (some ⟨v, l, r⟩) values = some false ∧
      evaluateNode (some ⟨v, l, r⟩) values = some false := by
  obtain ⟨h1, h2, h3, h4⟩ := isOperator_eq_false hop
  rcases l with - | a
  · rcases r with - | b
    · simp at hchild
    · exact ⟨by simp [evaluate, h1, h2, h3, h4], by simp [evaluateNode, h1, h2, h3, h4]⟩
  · exact ⟨by simp [evaluate, h1, h2, h3, h4], by simp [evaluateNode, h1, h2, h3, h4]⟩

/-- Witness for C10 at the concrete node `⟨"?", some "p", none⟩`. -/
theorem c10_evaluate_unknown_op_false_witness :
    isOperator "?" = false ∧
      evaluate (some ⟨"?", some ⟨"p", none, none⟩, none⟩) (fun _ => some true) = some false :=
  ⟨by decide,
    (c10_evaluate_unknown_op_false "?" (some ⟨"p", none, none⟩) none (fun _ => some true)
      (by decide) (Or.inl rfl)).1⟩

/-- C2 (divergence evidence): the parenthesis-free chain `p > q > r` is
parsed into the left-nested tree `(p > q) > r`, not the right-nested tree
`p > (q > r)` that the claimed right-associativity of IMPLIES would give. -/
theorem c2_implies_chain_parses_left_nested :
    buildParseTree (infixToPrefixTokens "p > q > r") =
      some ⟨">", some ⟨">", some ⟨"p", none, none⟩, some ⟨"q", none, none⟩⟩,
        some ⟨"r", none, none⟩⟩ ∧
    buildParseTree (infixToPrefixTokens "p > q > r") ≠
      some ⟨">", some ⟨"p", none, none⟩,
        some ⟨">", some ⟨"q", none, none⟩, some ⟨"r", none, none⟩⟩⟩ := by
  constructor
  · simp [infixToPrefixTokens, tokenize, tokenizeGo, isSpaceChar, isAlnumChar, isAtomChar,
      swapPar, shuntStep, firstCharAlnum, isOperator, precedence, buildParseTree, buildStep]
  · simp [infixToPrefixTokens, tokenize, tokenizeGo, isSpaceChar, isAlnumChar, isAtomChar,
      swapPar, shuntStep, firstCharAlnum, isOperator, precedence, buildParseTree, buildStep]

/-- C7 (counterexample): on the unbalanced input `p)` the returned prefix
sequence contains the parenthesis token `"("`: the open parenthesis left on
the operator stack (the reversed image of the unmatched `)`) is flushed into
the output, not dropped. -/
theorem c7_counterexample_paren_in_output :
    infixToPrefixTokens "p)" = ["(", "p"] := by
  simp [infixToPrefixTokens, tokenize, tokenizeGo, isSpaceChar, isAlnumChar, isAtomChar,
    swapPar, shuntStep, firstCharAlnum, isOperator, precedence]

/-- One shunting-yard step never places a `")"` on the stack or output. -/
theorem shuntStep_no_rpar (st : List String × List String) (tok : String)
    (h1 : ")" ∉ st.1) (h2 : ")" ∉ st.2) :
    ")" ∉ (shuntStep st tok).1 ∧ ")" ∉ (shuntStep st tok).2 := by
  obtain ⟨ops, output⟩ := st
  simp only [shuntStep]
  split_ifs with hA hB hC hD <;> dsimp only
  · refine ⟨h1, ?_⟩
    intro hmem
    rcases List.mem_append.1 hmem with h | h
    · exact h2 h
    · rcases List.mem_singleton.1 h with rfl
      exact absurd hA (by decide)
  · refine ⟨?_, h2⟩
    intro hmem
    rcases List.mem_cons.1 hmem with h | h
    · exact absurd (h.trans hB) (by decide)
    · exact h1 h
  · constructor
    · intro hmem
      exact h1 ((ops.dropWhile_sublist _).mem (List.mem_of_mem_drop hmem))
    · intro hmem
      rcases List.mem_append.1 hmem with h | h
      · exact h2 h
      · exact h1 ((ops.takeWhile_sublist _).mem h)
  · constructor
    · intro hmem
      rcases List.mem_cons.1 hmem with h | h
      · rw [← h] at hD
        exact absurd hD (by decide)
      · exact h1 ((ops.dropWhile_sublist _).mem h)
    · intro hmem
      rcases List.mem_append.1 hmem with h | h
      · exact h2 h
      · exact h1 ((ops.takeWhile_sublist _).mem h)
  · exact ⟨h1, h2⟩

/-- The shunting-yard fold never places a `")"` on the stack or output. -/
theorem foldl_shunt_no_rpar (toks : List String) (st : List String × List String)
    (h1 : ")" ∉ st.1) (h2 : ")" ∉ st.2) :
    ")" ∉ (toks.foldl shuntStep st).1 ∧ ")" ∉ (toks.foldl shuntStep st).2 := by
  induction toks generalizing st with
  | nil => exact ⟨h1, h2⟩
  | cons tok toks ih =>
    have h := shuntStep_no_rpar st tok h1 h2
    exact ih _ h.1 h.2

/-- C7 (amended): `infixToPrefix` always returns a prefix sequence in which
the token `")"` never occurs; a closing parenthesis met by the shunting pass
with no `"("` on the operator stack merely flushes the remaining operators
and is itself discarded; but open parentheses remaining on the operator
stack at the end are flushed into the output (they are not dropped), so `"("`
tokens can occur in the result. -/
theorem c7_no_rpar_and_unmatched_close_flushes :
    (∀ expr : String, ")" ∉ infixToPrefixTokens expr) ∧
      (∀ ops output : List String, "(" ∉ ops →
        shuntStep (ops, output) ")" = ([], output ++ ops)) := by
  constructor
  · intro expr hmem
    simp only [infixToPrefixTokens, List.mem_reverse, List.mem_append] at hmem
    have h := foldl_shunt_no_rpar (((tokenize expr).reverse).map swapPar) ([], [])
      (by simp) (by simp)
    rcases hmem with h' | h'
    · exact h.2 h'
    · exact h.1 h'
  · intro ops output hnopar
    have htake : ops.takeWhile (fun s => s != "(") = ops :=
      List.takeWhile_eq_self_iff.mpr fun a ha => by
        simp only [bne_iff_ne, ne_eq]
        exact fun hcontra => hnopar (hcontra ▸ ha)
    have hdrop : ops.dropWhile (fun s => s != "(") = [] :=
      List.dropWhile_eq_nil_iff.mpr fun a ha => by
        simp only [bne_iff_ne, ne_eq]
        exact fun hcontra => hnopar (hcontra ▸ ha)
    simp [shuntStep, firstCharAlnum, isAlnumChar, htake, hdrop]

/-- Witness for C7 (amended) at the input `"p)"` and a concrete stack. -/
theorem c7_no_rpar_witness :
    ")" ∉ infixToPrefixTokens "p)" ∧ shuntStep (["+"], ["p"]) ")" = ([], ["p", "+"]) :=
  ⟨c7_no_rpar_and_unmatched_close_flushes.1 "p)",
    c7_no_rpar_and_unmatched_close_flushes.2 ["+"] ["p"] (by decide)⟩

/-- A build step changes the stack length exactly as the claim's counting
step does (with `none` for the operand-underflow early return). -/
theorem buildStep_length (o : Option (List Node)) (tok : String) :
    (buildStep o tok).map List.length = buildCountStep (o.map List.length) tok := by
  rcases o with - | st
  · rfl
  · by_cases hop : isOperator tok
    · by_cases hneg : tok = "~"
      · subst hneg
        rcases st with - | ⟨t, rest⟩ <;>
          simp [buildStep, buildCountStep, isOperator]
      · rcases st with - | ⟨a, st'⟩
        · simp [buildStep, buildCountStep, hop, hneg]
        · rcases st' with - | ⟨b, rest⟩ <;>
            simp [buildStep, buildCountStep, hop, hneg]
    · simp [buildStep, buildCountStep, hop]

/-- The build fold's stack length follows the claim's counting fold. -/
theorem foldl_buildStep_length (toks : List String) (o : Option (List Node)) :
    (toks.foldl buildStep o).map List.length = toks.foldl buildCountStep (o.map List.length) := by
  induction toks generalizing o with
  | nil => rfl
  | cons tok toks ih =>
    rw [List.foldl_cons, List.foldl_cons, ih, buildStep_length]

/-- C5: `buildParseTree` returns no tree exactly when, scanning the prefix
tokens from last to first, some operator cannot pop its required operands
(one for `~`, two for a binary operator) or the final stack holds other than
exactly one subtree; on failure no tree is produced (`none`). -/
theorem c5_buildParseTree_none_iff (tokens : List String) :
    buildParseTree tokens = none ↔ buildFailSpec tokens = true := by
  have h : (tokens.reverse.foldl buildStep (some [])).map List.length
      = tokens.reverse.foldl buildCountStep (some 0) :=
    foldl_buildStep_length tokens.reverse (some [])
  cases hfold : tokens.reverse.foldl buildStep (some []) with
  | none =>
    rw [hfold] at h
    simp [buildParseTree, hfold, buildFailSpec, ← h]
  | some st =>
    rw [hfold] at h
    rcases st with - | ⟨t, rest⟩
    · simp [buildParseTree, hfold, buildFailSpec, ← h]
    · rcases rest with - | ⟨u, rest'⟩
      · simp [buildParseTree, hfold, buildFailSpec, ← h]
      · simp [buildParseTree, hfold, buildFailSpec, ← h]

/-- On an atom-denoting literal, `negationOf` prepends `~`. -/
theorem negationOf_atom {p : String} (h : isAtomStr p = true) :
    negationOf p = "~" ++ p := by
  unfold negationOf
  unfold isAtomStr at h
  split
  next heq =>
    rw [heq] at h
    simp at h
  next => rfl

/-- `negationOf` strips a prepended `~`. -/
theorem negationOf_tilde_append (p : String) : negationOf ("~" ++ p) = p := by
  unfold negationOf
  have hdata : ("~" ++ p).data = '~' :: p.data := by
    rw [String.data_append]
    rfl
  split
  next rest heq =>
    rw [hdata] at heq
    obtain ⟨-, hrest⟩ := List.cons.inj heq
    rw [← hrest]
  next hne =>
    exact absurd (hne p.data hdata) (fun h => h)

/-- No string equals itself with `~` prepended. -/
theorem self_ne_tilde_append (p : String) : p ≠ "~" ++ p := by
  intro h
  have hlen := congrArg (fun s => s.data.length) h
  simp [String.data_append] at hlen

/-- If some pending literal's negation has already been seen, the clause scan
reports a tautology. -/
theorem clauseTautoGo_of_seen :
    ∀ rest seen : List String, (∃ x ∈ rest, negationOf x ∈ seen) →
      clauseTautoGo rest seen = true := by
  intro rest
  induction rest with
  | nil => intro seen h; simp at h
  | cons lit rest ih =>
    intro seen h
    by_cases hneg : negationOf lit ∈ seen
    · simp [clauseTautoGo, hneg]
    · obtain ⟨x, hx, hnx⟩ := h
      rcases List.mem_cons.1 hx with rfl | hx'
      · exact absurd hnx hneg
      · simp only [clauseTautoGo, if_neg hneg]
        exact ih _ ⟨x, hx', List.mem_cons_of_mem _ hnx⟩

/-- If the clause scan reports a tautology, some scanned literal's negation
occurs among the other scanned literals or the initial seen set. -/
theorem clauseTautoGo_true_pair :
    ∀ rest seen : List String, clauseTautoGo rest seen = true →
      ∃ lit, lit ∈ rest ∧ (negationOf lit ∈ rest ∨ negationOf lit ∈ seen) := by
  intro rest
  induction rest with
  | nil => intro seen h; simp [clauseTautoGo] at h
  | cons lit rest ih =>
    intro seen h
    by_cases hneg : negationOf lit ∈ seen
    · exact ⟨lit, List.mem_cons_self _ _, Or.inr hneg⟩
    · simp only [clauseTautoGo, if_neg hneg] at h
      obtain ⟨x, hx, hnx⟩ := ih _ h
      refine ⟨x, List.mem_cons_of_mem _ hx, ?_⟩
      rcases hnx with hnx | hnx
      · exact Or.inl (List.mem_cons_of_mem _ hnx)
      · rcases List.mem_cons.1 hnx with heq | hnx'
        · exact Or.inl (heq ▸ List.mem_cons_self _ _)
        · exact Or.inr hnx'

/-- If a clause suffix contains both an atom and its negation, the scan
reports a tautology. -/
theorem clauseTautoGo_pair :
    ∀ rest seen p, isAtomStr p = true → p ∈ rest → "~" ++ p ∈ rest →
      clauseTautoGo rest seen = true := by
  intro rest
  induction rest with
  | nil => intro seen p _ hp _; simp at hp
  | cons lit rest ih =>
    intro seen p hatom hp hnp
    by_cases hneg : negationOf lit ∈ seen
    · simp [clauseTautoGo, hneg]
    · simp only [clauseTautoGo, if_neg hneg]
      rcases List.mem_cons.1 hp with rfl | hp'
      · rcases List.mem_cons.1 hnp with heq | hnp'
        · exact absurd heq.symm (self_ne_tilde_append p)
        · refine clauseTautoGo_of_seen _ _ ⟨"~" ++ p, hnp', ?_⟩
          rw [negationOf_tilde_append]
          exact List.mem_cons_self _ _
      · rcases List.mem_cons.1 hnp with heq | hnp'
        · refine clauseTautoGo_of_seen _ _ ⟨p, hp', ?_⟩
          rw [negationOf_atom hatom, heq]
          exact List.mem_cons_self _ _
        · exact ih _ p hatom hp' hnp'

/-- C4: for every clause whose entries are well-formed literal strings (an
atom, or `~` followed by an atom), the per-clause classifier of
`analyzeCNFValidity` reports a tautology if and only if for some atom `p`
both the literal `p` and the literal `~p` occur in the clause; in particular
duplicate occurrences of one literal alone never make a clause tautological. -/
theorem c4_clause_tautology_iff (clause : List String)
    (hwf : ∀ l ∈ clause, isLiteralStr l = true) :
    clauseIsTautology clause = true ↔
      ∃ p, isAtomStr p = true ∧ p ∈ clause ∧ "~" ++ p ∈ clause := by
  constructor
  · intro h
    obtain ⟨lit, hlit, hneg⟩ := clauseTautoGo_true_pair clause [] h
    have hneg' : negationOf lit ∈ clause := by
      rcases hneg with h' | h'
      · exact h'
      · simp at h'
    have hwl := hwf lit hlit
    unfold isLiteralStr at hwl
    split at hwl
    next rest heq =>
      refine ⟨String.mk rest, hwl, ?_, ?_⟩
      · have : negationOf lit = String.mk rest := by
          unfold negationOf
          rw [heq]
          rfl
        rwa [this] at hneg'
      · have : "~" ++ String.mk rest = lit := by
          apply String.ext
          rw [String.data_append, heq]
          rfl
        rwa [this]
    next =>
      refine ⟨lit, hwl, hlit, ?_⟩
      rwa [negationOf_atom hwl] at hneg'
  · rintro ⟨p, hatom, hp, hnp⟩
    exact clauseTautoGo_pair clause [] p hatom hp hnp

/-- Witness for C4 on the clause `["q", "p", "~p"]`. -/
theorem c4_clause_tautology_iff_witness :
    (∀ l ∈ ["q", "p", "~p"], isLiteralStr l = true) ∧
      clauseIsTautology ["q", "p", "~p"] = true :=
  ⟨by decide,
    (c4_clause_tautology_iff ["q", "p", "~p"] (by decide)).mpr
      ⟨"p", by decide, by decide, by decide⟩⟩

/-- C6 (counterexample): the input `_a` is tokenized as the two tokens
`["_", "a"]`, not as the single atom `["_a"]` that the claimed atom syntax
`[A-Za-z0-9_]+` (with atoms allowed to begin with an underscore) would give:
an atom run only starts at an alphanumeric character. -/
theorem c6_counterexample_underscore_start :
    tokenize "_a" = ["_", "a"] ∧ tokenize "_a" ≠ ["_a"] := by
  have h : tokenize "_a" = ["_", "a"] := by
    simp [tokenize, tokenizeGo, isSpaceChar, isAlnumChar, isAtomChar]
  refine ⟨h, ?_⟩
  rw [h]
  decide

/-- An alphanumeric character also continues an atom run. -/
theorem isAtomChar_of_alnum {c : Char} (h : isAlnumChar c = true) :
    isAtomChar c = true := by
  simp [isAtomChar, h]

/-- Stepping the specification tokenizer over the remaining characters and
flushing produces exactly the already-emitted tokens followed by the residual
tokens of `tokenize`'s scanning loop. -/
theorem tokenizeSpec_foldl_eq :
    ∀ (cs : List Char) (acc : List String) (st : Option (List Char)),
      tokenizeFlush (cs.foldl tokenizeSpecStep (acc, st)) = acc ++ tokenizeResidual st cs := by
  intro cs
  induction cs with
  | nil =>
    intro acc st
    rcases st with - | run
    · simp [tokenizeFlush, tokenizeResidual, tokenizeGo]
    · simp [tokenizeFlush, tokenizeResidual, tokenizeGo]
  | cons c cs ih =>
    intro acc st
    rw [List.foldl_cons]
    rcases st with - | run
    · cases hsp : isSpaceChar c with
      | true =>
        rw [show tokenizeSpecStep (acc, none) c = (acc, none) by simp [tokenizeSpecStep, hsp]]
        rw [ih acc none]
        simp [tokenizeResidual, tokenizeGo, hsp]
      | false =>
        cases hal : isAlnumChar c with
        | true =>
          rw [show tokenizeSpecStep (acc, none) c = (acc, some [c]) by
            simp [tokenizeSpecStep, hsp, hal]]
          rw [ih acc (some [c])]
          simp [tokenizeResidual, tokenizeGo, hsp, hal]
        | false =>
          rw [show tokenizeSpecStep (acc, none) c = (acc ++ [String.mk [c]], none) by
            simp [tokenizeSpecStep, hsp, hal]]
          rw [ih _ none]
          simp [tokenizeResidual, tokenizeGo, hsp, hal]
    · cases hat : isAtomChar c with
      | true =>
        rw [show tokenizeSpecStep (acc, some run) c = (acc, some (run ++ [c])) by
          simp [tokenizeSpecStep, hat]]
        rw [ih acc (some (run ++ [c]))]
        simp [tokenizeResidual, List.takeWhile_cons, List.dropWhile_cons, hat]
      | false =>
        have hal : isAlnumChar c = false := by
          rcases h : isAlnumChar c
          · rfl
          · rw [isAtomChar_of_alnum h] at hat
            exact absurd hat (by simp)
        cases hsp : isSpaceChar c with
        | true =>
          rw [show tokenizeSpecStep (acc, some run) c = (acc ++ [String.mk run], none) by
            simp [tokenizeSpecStep, hat, hsp]]
          rw [ih _ none]
          simp [tokenizeResidual, tokenizeGo, hsp, hat, List.takeWhile_cons,
            List.dropWhile_cons]
        | false =>
          rw [show tokenizeSpecStep (acc, some run) c
              = (acc ++ [String.mk run, String.mk [c]], none) by
            simp [tokenizeSpecStep, hat, hsp]]
          rw [ih _ none]
          simp [tokenizeResidual, tokenizeGo, hsp, hal, hat, List.takeWhile_cons,
            List.dropWhile_cons]

/-- C6 (amended): the tokenizer skips whitespace, emits one atom token per
maximal run that starts with an alphanumeric character and continues with
alphanumeric-or-underscore characters (so an atom matches
`[A-Za-z0-9][A-Za-z0-9_]*`; a leading underscore is not part of an atom), and
emits every other non-whitespace character — including a leading underscore —
as its own single-character token: `tokenize` coincides with the
specification tokenizer `tokenizeSpec` built from exactly those rules. -/
theorem c6_tokenize_eq_spec (expr : String) : tokenize expr = tokenizeSpec expr := by
  rw [tokenize, tokenizeSpec, tokenizeSpec_foldl_eq expr.data [] none]
  rfl

/-- Unfolding lemma: `distributeOrOverAnd` on a leaf. -/
theorem distributeOrOverAnd_leaf (v : String) :
    distributeOrOverAnd (some ⟨v, none, none⟩) = some ⟨v, none, none⟩ := by
  simp [distributeOrOverAnd]

/-- Unfolding lemma: `distributeOrOverAnd` on a non-leaf node. -/
theorem distributeOrOverAnd_node (v : String) (l r : Option Node)
    (h : ¬(l = none ∧ r = none)) :
    distributeOrOverAnd (some ⟨v, l, r⟩) =
      if v = "+" then some (distOr (distributeOrOverAnd l) (distributeOrOverAnd r))
      else some ⟨v, distributeOrOverAnd l, distributeOrOverAnd r⟩ := by
  rcases l with - | a
  · rcases r with - | b
    · exact absurd ⟨rfl, rfl⟩ h
    · simp [distributeOrOverAnd]
  · rcases r with - | b <;> simp [distributeOrOverAnd]

/-- Unfolding lemma: `distOr` when the left operand is an AND node. -/
theorem distOr_star_left (al ar b : Option Node) :
    distOr (some ⟨"*", al, ar⟩) b = ⟨"*", some (distOr al b), some (distOr ar b)⟩ := by
  simp [distOr]

/-- Unfolding lemma: `distOr` when only the right operand is an AND node. -/
theorem distOr_star_right (a bl br : Option Node)
    (ha : ∀ al ar : Option Node, a ≠ some ⟨"*", al, ar⟩) :
    distOr a (some ⟨"*", bl, br⟩) = ⟨"*", some (distOr a bl), some (distOr a br)⟩ := by
  rcases a with - | ⟨v, l, r⟩
  · simp [distOr]
  · by_cases hv : v = "*"
    · subst hv
      exact absurd rfl (ha l r)
    · simp [distOr, hv]

/-- Unfolding lemma: `distOr` when neither operand is an AND node. -/
theorem distOr_or (a b : Option Node)
    (ha : ∀ al ar : Option Node, a ≠ some ⟨"*", al, ar⟩)
    (hb : ∀ bl br : Option Node, b ≠ some ⟨"*", bl, br⟩) :
    distOr a b = ⟨"+", a, b⟩ := by
  rcases a with - | ⟨va, la, ra⟩
  · rcases b with - | ⟨vb, lb, rb⟩
    · simp [distOr]
    · by_cases hvb : vb = "*"
      · subst hvb
        exact absurd rfl (hb lb rb)
      · simp [distOr, hvb]
  · by_cases hva : va = "*"
    · subst hva
      exact absurd rfl (ha la ra)
    · rcases b with - | ⟨vb, lb, rb⟩
      · simp [distOr, hva]
      · by_cases hvb : vb = "*"
        · subst hvb
          exact absurd rfl (hb lb rb)
        · simp [distOr, hva, hvb]

/-- `distStable` holds for the empty tree. -/
theorem distStable_none : distStable none := by
  simp [distStable]

/-- Unfolding lemma for `distStable` on a node. -/
theorem distStable_some {v : String} {l r : Option Node} :
    distStable (some ⟨v, l, r⟩) ↔
      distributeOrOverAnd (some ⟨v, l, r⟩) = some ⟨v, l, r⟩ ∧ distStable l ∧ distStable r := by
  simp [distStable]

/-- `distributeOrOverAnd` maps `some` to `some` and `none` to `none`. -/
theorem distributeOrOverAnd_eq_none_iff (t : Option Node) :
    distributeOrOverAnd t = none ↔ t = none := by
  induction t using distributeOrOverAnd.induct with
  | case1 => simp [distributeOrOverAnd]
  | case2 v => simp [distributeOrOverAnd_leaf]
  | case3 l r h ihl ihr =>
    rw [distributeOrOverAnd_node "+" l r (by tauto)]
    simp
  | case4 v l r h hv ihl ihr =>
    rw [distributeOrOverAnd_node v l r (by tauto), if_neg hv]
    simp

/-- A `distStable` tree is a fixed point of the pass. -/
theorem distStable_fix {t : Option Node} (h : distStable t) :
    distributeOrOverAnd t = t := by
  rcases t with - | ⟨v, l, r⟩
  · simp [distributeOrOverAnd]
  · exact (distStable_some.mp h).1

/-- `distOr` on two stable trees yields a stable tree. -/
theorem distStable_distOr (a b : Option Node) (ha : distStable a) (hb : distStable b) :
    distStable (some (distOr a b)) := by
  induction a, b using distOr.induct with
  | case1 al ar b ih1 ih2 =>
    obtain ⟨-, hal, har⟩ := distStable_some.mp ha
    have s1 := ih1 hal hb
    have s2 := ih2 har hb
    rw [distOr_star_left]
    refine distStable_some.mpr ⟨?_, s1, s2⟩
    rw [distributeOrOverAnd_node "*" _ _ (by simp)]
    rw [if_neg (by decide), distStable_fix s1, distStable_fix s2]
  | case2 a bl br hnota ih1 ih2 =>
    obtain ⟨-, hbl, hbr⟩ := distStable_some.mp hb
    have s1 := ih1 ha hbl
    have s2 := ih2 ha hbr
    rw [distOr_star_right _ _ _ (fun al ar h => hnota al ar h)]
    refine distStable_some.mpr ⟨?_, s1, s2⟩
    rw [distributeOrOverAnd_node "*" _ _ (by simp)]
    rw [if_neg (by decide), distStable_fix s1, distStable_fix s2]
  | case3 a b hnota hnotb =>
    rw [distOr_or a b (fun al ar h => hnota al ar h) (fun bl br h => hnotb bl br h)]
    by_cases hnone : a = none ∧ b = none
    · obtain ⟨rfl, rfl⟩ := hnone
      exact distStable_some.mpr ⟨distributeOrOverAnd_leaf "+", distStable_none, distStable_none⟩
    · refine distStable_some.mpr ⟨?_, ha, hb⟩
      rw [distributeOrOverAnd_node "+" a b hnone, if_pos rfl,
        distStable_fix ha, distStable_fix hb,
        distOr_or a b (fun al ar h => hnota al ar h) (fun bl br h => hnotb bl br h)]

/-- Every output of `distributeOrOverAnd` is stable: re-running the pass (as
the inner recursive calls of the C++ code do on already-processed subtrees)
leaves it unchanged. -/
theorem distStable_distributeOrOverAnd (t : Option Node) :
    distStable (distributeOrOverAnd t) := by
  induction t using distributeOrOverAnd.induct with
  | case1 =>
    rw [show distributeOrOverAnd none = none by simp [distributeOrOverAnd]]
    exact distStable_none
  | case2 v =>
    rw [distributeOrOverAnd_leaf]
    exact distStable_some.mpr ⟨distributeOrOverAnd_leaf v, distStable_none, distStable_none⟩
  | case3 l r h ihl ihr =>
    rw [distributeOrOverAnd_node "+" l r (by tauto), if_pos rfl]
    exact distStable_distOr _ _ ihl ihr
  | case4 v l r h hv ihl ihr =>
    rw [distributeOrOverAnd_node v l r (by tauto), if_neg hv]
    have hnone : ¬(distributeOrOverAnd l = none ∧ distributeOrOverAnd r = none) := by
      rw [distributeOrOverAnd_eq_none_iff, distributeOrOverAnd_eq_none_iff]
      tauto
    refine distStable_some.mpr ⟨?_, ihl, ihr⟩
    rw [distributeOrOverAnd_node v _ _ hnone, if_neg hv,
      distStable_fix ihl, distStable_fix ihr]

/-- The distribution pass is idempotent (this is the faithfulness fact noted
at `distOr`: the pass leaves its own outputs unchanged). -/
theorem distributeOrOverAnd_fix (t : Option Node) :
    distributeOrOverAnd (distributeOrOverAnd t) = distributeOrOverAnd t :=
  distStable_fix (distStable_distributeOrOverAnd t)

/-- A clause tree that is not an OR node is a literal tree. -/
theorem isLitTree_of_isClauseTree {t : Node} (h : isClauseTree t = true)
    (hne : ∀ l r : Node, t ≠ ⟨"+", some l, some r⟩) : isLitTree t = true := by
  unfold isClauseTree at h
  split at h
  next l r => exact absurd rfl (hne l r)
  next => exact h

/-- A CNF tree that is not an AND node is a clause tree. -/
theorem isClauseTree_of_isCNFTree {t : Node} (h : isCNFTree t = true)
    (hne : ∀ l r : Node, t ≠ ⟨"*", some l, some r⟩) : isClauseTree t = true := by
  unfold isCNFTree at h
  split at h
  next l r => exact absurd rfl (hne l r)
  next => exact h

/-- A clause tree is never an AND node. -/
theorem isClauseTree_ne_star {t : Node} (h : isClauseTree t = true) :
    ∀ al ar : Option Node, t ≠ ⟨"*", al, ar⟩ := by
  intro al ar heq
  subst heq
  rcases al with - | a <;> rcases ar with - | b <;>
    simp [isClauseTree, isLitTree, isOperator] at h

/-- `eliminateImplications` leaves literal trees unchanged. -/
theorem eliminateImplications_lit {t : Node} (h : isLitTree t = true) :
    eliminateImplications (some t) = some t := by
  unfold isLitTree at h
  split at h
  next v => simp [eliminateImplications]
  next a => simp [eliminateImplications]
  next => exact absurd h (by simp)

/-- `eliminateImplications` leaves clause trees unchanged. -/
theorem eliminateImplications_clause {t : Node} (h : isClauseTree t = true) :
    eliminateImplications (some t) = some t := by
  induction t using isClauseTree.induct with
  | case1 l r ihl ihr =>
    rw [show isClauseTree ⟨"+", some l, some r⟩ = (isClauseTree l && isClauseTree r) from by
      simp [isClauseTree]] at h
    rw [Bool.and_eq_true] at h
    obtain ⟨h1, h2⟩ := h
    simp [eliminateImplications, ihl h1, ihr h2]
  | case2 t hne =>
    exact eliminateImplications_lit (isLitTree_of_isClauseTree h fun l r heq => hne l r heq)

/-- `eliminateImplications` leaves CNF trees unchanged. -/
theorem eliminateImplications_cnf {t : Node} (h : isCNFTree t = true) :
    eliminateImplications (some t) = some t := by
  induction t using isCNFTree.induct with
  | case1 l r ihl ihr =>
    rw [show isCNFTree ⟨"*", some l, some r⟩ = (isCNFTree l && isCNFTree r) from by
      simp [isCNFTree]] at h
    rw [Bool.and_eq_true] at h
    obtain ⟨h1, h2⟩ := h
    simp [eliminateImplications, ihl h1, ihr h2]
  | case2 t hne =>
    exact eliminateImplications_clause (isClauseTree_of_isCNFTree h fun l r heq => hne l r heq)

/-- `moveNegations` leaves literal trees unchanged. -/
theorem moveNegations_lit {t : Node} (h : isLitTree t = true) :
    moveNegations (some t) = some t := by
  unfold isLitTree at h
  split at h
  next v => simp [moveNegations]
  next a =>
    rw [Bool.not_eq_true'] at h
    obtain ⟨h1, h2, h3, h4⟩ := isOperator_eq_false h
    simp [moveNegations, h1, h2, h4]
  next => exact absurd h (by simp)

/-- `moveNegations` leaves clause trees unchanged. -/
theorem moveNegations_clause {t : Node} (h : isClauseTree t = true) :
    moveNegations (some t) = some t := by
  induction t using isClauseTree.induct with
  | case1 l r ihl ihr =>
    rw [show isClauseTree ⟨"+", some l, some r⟩ = (isClauseTree l && isClauseTree r) from by
      simp [isClauseTree]] at h
    rw [Bool.and_eq_true] at h
    obtain ⟨h1, h2⟩ := h
    simp [moveNegations, ihl h1, ihr h2]
  | case2 t hne =>
    exact moveNegations_lit (isLitTree_of_isClauseTree h fun l r heq => hne l r heq)

/-- `moveNegations` leaves CNF trees unchanged. -/
theorem moveNegations_cnf {t : Node} (h : isCNFTree t = true) :
    moveNegations (some t) = some t := by
  induction t using isCNFTree.induct with
  | case1 l r ihl ihr =>
    rw [show isCNFTree ⟨"*", some l, some r⟩ = (isCNFTree l && isCNFTree r) from by
      simp [isCNFTree]] at h
    rw [Bool.and_eq_true] at h
    obtain ⟨h1, h2⟩ := h
    simp [moveNegations, ihl h1, ihr h2]
  | case2 t hne =>
    exact moveNegations_clause (isClauseTree_of_isCNFTree h fun l r heq => hne l r heq)

/-- `distributeOrOverAnd` leaves literal trees unchanged. -/
theorem distributeOrOverAnd_lit {t : Node} (h : isLitTree t = true) :
    distributeOrOverAnd (some t) = some t := by
  unfold isLitTree at h
  split at h
  next v => exact distributeOrOverAnd_leaf v
  next a =>
    rw [distributeOrOverAnd_node "~" _ _ (by simp), if_neg (by decide),
      distributeOrOverAnd_leaf, show distributeOrOverAnd none = none from by
        simp [distributeOrOverAnd]]
  next => exact absurd h (by simp)

/-- `distributeOrOverAnd` leaves clause trees unchanged. -/
theorem distributeOrOverAnd_clause {t : Node} (h : isClauseTree t = true) :
    distributeOrOverAnd (some t) = some t := by
  induction t using isClauseTree.induct with
  | case1 l r ihl ihr =>
    rw [show isClauseTree ⟨"+", some l, some r⟩ = (isClauseTree l && isClauseTree r) from by
      simp [isClauseTree]] at h
    rw [Bool.and_eq_true] at h
    obtain ⟨h1, h2⟩ := h
    rw [distributeOrOverAnd_node "+" _ _ (by simp), if_pos rfl, ihl h1, ihr h2,
      distOr_or (some l) (some r)
        (fun al ar heq => isClauseTree_ne_star h1 al ar (Option.some.inj heq))
        (fun bl br heq => isClauseTree_ne_star h2 bl br (Option.some.inj heq))]
  | case2 t hne =>
    exact distributeOrOverAnd_lit (isLitTree_of_isClauseTree h fun l r heq => hne l r heq)

/-- `distributeOrOverAnd` leaves CNF trees unchanged. -/
theorem distributeOrOverAnd_cnf {t : Node} (h : isCNFTree t = true) :
    distributeOrOverAnd (some t) = some t := by
  induction t using isCNFTree.induct with
  | case1 l r ihl ihr =>
    rw [show isCNFTree ⟨"*", some l, some r⟩ = (isCNFTree l && isCNFTree r) from by
      simp [isCNFTree]] at h
    rw [Bool.and_eq_true] at h
    obtain ⟨h1, h2⟩ := h
    rw [distributeOrOverAnd_node "*" _ _ (by simp), if_neg (by decide), ihl h1, ihr h2]
  | case2 t hne =>
    exact distributeOrOverAnd_clause (isClauseTree_of_isCNFTree h fun l r heq => hne l r heq)

/-- `convertToCNF` is the identity on CNF trees. -/
theorem convertToCNF_fix {t : Node} (h : isCNFTree t = true) :
    convertToCNF (some t) = some t := by
  rw [convertToCNF, eliminateImplications_cnf h, moveNegations_cnf h,
    distributeOrOverAnd_cnf h]

/-- C9: applying `convertToCNF` to a tree already in CNF (an AND-of-ORs-of-
literals) yields a tree whose extracted clause multiset — each clause viewed
as a multiset of literal strings via `collectClauses` — equals that of the
input tree (the conversion is in fact the identity on such trees,
`convertToCNF_fix`). -/
theorem c9_convertToCNF_idempotent (t : Node) (h : isCNFTree t = true) :
    Multiset.ofList
        ((collectClauses (convertToCNF (some t))).map fun c => Multiset.ofList c)
      = Multiset.ofList ((collectClauses (some t)).map fun c => Multiset.ofList c) := by
  rw [convertToCNF_fix h]

/-- Witness for C9 on the CNF tree `(p + ~q) * r`. -/
theorem c9_convertToCNF_idempotent_witness :
    isCNFTree ⟨"*", some ⟨"+", some ⟨"p", none, none⟩,
        some ⟨"~", some ⟨"q", none, none⟩, none⟩⟩, some ⟨"r", none, none⟩⟩ = true ∧
      Multiset.ofList
          ((collectClauses (convertToCNF (some ⟨"*", some ⟨"+", some ⟨"p", none, none⟩,
              some ⟨"~", some ⟨"q", none, none⟩, none⟩⟩,
              some ⟨"r", none, none⟩⟩))).map fun c => Multiset.ofList c)
        = Multiset.ofList ((collectClauses (some ⟨"*", some ⟨"+", some ⟨"p", none, none⟩,
            some ⟨"~", some ⟨"q", none, none⟩, none⟩⟩,
            some ⟨"r", none, none⟩⟩)).map fun c => Multiset.ofList c) :=
  ⟨by simp [isCNFTree, isClauseTree, isLitTree, isOperator],
    c9_convertToCNF_idempotent _ (by simp [isCNFTree, isClauseTree, isLitTree, isOperator])⟩

/-- A well-formed tree is non-null. -/
theorem wfB_isSome {t : Option Node} (h : wfB t = true) : ∃ x, t = some x := by
  rcases t with - | x
  · simp [wfB] at h
  · exact ⟨x, rfl⟩

/-- Unfolding lemma: well-formedness of a leaf. -/
theorem wfB_leaf_eq (v : String) : wfB (some ⟨v, none, none⟩) = !isOperator v := by
  simp [wfB]

/-- Unfolding lemma: well-formedness of a negation node. -/
theorem wfB_neg_eq (c : Node) : wfB (some ⟨"~", some c, none⟩) = wfB (some c) := by
  simp [wfB]

/-- Unfolding lemma: well-formedness of a node with two children. -/
theorem wfB_binary_iff (v : String) (a b : Node) :
    wfB (some ⟨v, some a, some b⟩) = true ↔
      (v = "*" ∨ v = "+" ∨ v = ">") ∧ wfB (some a) = true ∧ wfB (some b) = true := by
  simp [wfB, and_assoc]
  intro _ _
  tauto

/-- Inversion of well-formedness: a well-formed node is a non-operator leaf,
a `~` node with exactly a well-formed left child, or a binary operator node
with two well-formed children. -/
theorem wfB_inv {v : String} {l r : Option Node} (h : wfB (some ⟨v, l, r⟩) = true) :
    (l = none ∧ r = none ∧ isOperator v = false) ∨
      (v = "~" ∧ r = none ∧ ∃ c : Node, l = some c ∧ wfB (some c) = true) ∨
      ((v = "*" ∨ v = "+" ∨ v = ">") ∧
        ∃ a b : Node, l = some a ∧ r = some b ∧ wfB (some a) = true ∧ wfB (some b) = true) := by
  rcases l with - | a
  · rcases r with - | b
    · rw [wfB_leaf_eq, Bool.not_eq_true'] at h
      exact Or.inl ⟨rfl, rfl, h⟩
    · simp [wfB] at h
  · rcases r with - | b
    · by_cases hv : v = "~"
      · subst hv
        exact Or.inr (Or.inl ⟨rfl, rfl, a, rfl, by rwa [wfB_neg_eq] at h⟩)
      · simp [wfB, hv] at h
    · obtain ⟨hvor, ha, hb⟩ := (wfB_binary_iff v a b).mp h
      exact Or.inr (Or.inr ⟨hvor, a, b, rfl, rfl, ha, hb⟩)

/-- Unfolding lemma for `noImp` on a node. -/
theorem noImp_some (v : String) (l r : Option Node) :
    noImp (some ⟨v, l, r⟩) = ((v != ">") && noImp l && noImp r) := by
  simp [noImp]

/-- Unfolding lemma for `isNNF` on a negation node. -/
theorem isNNF_neg (l r : Option Node) :
    isNNF (some ⟨"~", l, r⟩) = (isAtomLeaf l && r.isNone) := by
  simp [isNNF]

/-- Unfolding lemma for `isNNF` on a non-negation node. -/
theorem isNNF_other {v : String} (hv : v ≠ "~") (l r : Option Node) :
    isNNF (some ⟨v, l, r⟩) = (isNNF l && isNNF r) := by
  simp [isNNF, hv]

/-- Unfolding lemma: `eliminateImplications` on a leaf. -/
theorem eliminateImplications_leaf (v : String) :
    eliminateImplications (some ⟨v, none, none⟩) = some ⟨v, none, none⟩ := by
  simp [eliminateImplications]

/-- Unfolding lemma: `eliminateImplications` on a non-leaf node. -/
theorem eliminateImplications_node (v : String) (l r : Option Node)
    (h : ¬(l = none ∧ r = none)) :
    eliminateImplications (some ⟨v, l, r⟩) =
      if v = ">" then
        some ⟨"+", some ⟨"~", eliminateImplications l, none⟩, eliminateImplications r⟩
      else some ⟨v, eliminateImplications l, eliminateImplications r⟩ := by
  rcases l with - | a
  · rcases r with - | b
    · exact absurd ⟨rfl, rfl⟩ h
    · simp [eliminateImplications]
  · rcases r with - | b <;> simp [eliminateImplications]

/-- `eliminateImplications` maps `some` to `some` and `none` to `none`. -/
theorem eliminateImplications_eq_none_iff (t : Option Node) :
    eliminateImplications t = none ↔ t = none := by
  induction t using eliminateImplications.induct with
  | case1 => simp [eliminateImplications]
  | case2 v => simp [eliminateImplications_leaf]
  | case3 l r hne ihl ihr =>
    rw [eliminateImplications_node _ _ _ (by tauto), if_pos rfl]
    simp
  | case4 v l r hne hv ihl ihr =>
    rw [eliminateImplications_node _ _ _ (by tauto), if_neg hv]
    simp

/-- `eliminateImplications (some t)` is `some`. -/
theorem eliminateImplications_isSome (a : Node) :
    ∃ x, eliminateImplications (some a) = some x := by
  rcases hh : eliminateImplications (some a) with - | x
  · rw [eliminateImplications_eq_none_iff] at hh
    exact absurd hh (by simp)
  · exact ⟨x, rfl⟩

/-- `eliminateImplications` preserves well-formedness. -/
theorem wfB_eliminateImplications {t : Option Node} (h : wfB t = true) :
    wfB (eliminateImplications t) = true := by
  induction t using eliminateImplications.induct with
  | case1 => simp [wfB] at h
  | case2 v => rwa [eliminateImplications_leaf]
  | case3 l r hne ihl ihr =>
    rcases wfB_inv h with ⟨hl, hr, -⟩ | ⟨hv, -, -⟩ | ⟨-, a, b, hl, hr, ha, hb⟩
    · exact (hne hl hr).elim
    · exact absurd hv (by decide)
    · subst hl
      subst hr
      rw [eliminateImplications_node _ _ _ (by tauto), if_pos rfl]
      obtain ⟨a', ha'⟩ := eliminateImplications_isSome a
      obtain ⟨b', hb'⟩ := eliminateImplications_isSome b
      rw [ha', hb']
      rw [wfB_binary_iff]
      refine ⟨Or.inr (Or.inl rfl), ?_, ?_⟩
      · rw [wfB_neg_eq, ← ha']
        exact ihl ha
      · rw [← hb']
        exact ihr hb
  | case4 v l r hne hv ihl ihr =>
    rcases wfB_inv h with ⟨hl, hr, -⟩ | ⟨hveq, hr, c, hl, hc⟩ | ⟨hvor, a, b, hl, hr, ha, hb⟩
    · exact (hne hl hr).elim
    · subst hveq
      subst hl
      subst hr
      rw [eliminateImplications_node _ _ _ (by tauto), if_neg hv]
      obtain ⟨c', hc'⟩ := eliminateImplications_isSome c
      rw [show eliminateImplications none = none from by simp [eliminateImplications], hc',
        wfB_neg_eq, ← hc']
      exact ihl hc
    · subst hl
      subst hr
      rw [eliminateImplications_node _ _ _ (by tauto), if_neg hv]
      obtain ⟨a', ha'⟩ := eliminateImplications_isSome a
      obtain ⟨b', hb'⟩ := eliminateImplications_isSome b
      rw [ha', hb', wfB_binary_iff]
      refine ⟨hvor, ?_, ?_⟩
      · rw [← ha']
        exact ihl ha
      · rw [← hb']
        exact ihr hb

/-- After `eliminateImplications`, a well-formed tree has no `>` node. -/
theorem noImp_eliminateImplications {t : Option Node} (h : wfB t = true) :
    noImp (eliminateImplications t) = true := by
  induction t using eliminateImplications.induct with
  | case1 => simp [wfB] at h
  | case2 v =>
    rw [eliminateImplications_leaf, noImp_some]
    rw [wfB_leaf_eq, Bool.not_eq_true'] at h
    obtain ⟨-, -, h3, -⟩ := isOperator_eq_false h
    simp [noImp, h3]
  | case3 l r hne ihl ihr =>
    rcases wfB_inv h with ⟨hl, hr, -⟩ | ⟨hv, -, -⟩ | ⟨-, a, b, hl, hr, ha, hb⟩
    · exact (hne hl hr).elim
    · exact absurd hv (by decide)
    · subst hl
      subst hr
      rw [eliminateImplications_node _ _ _ (by tauto), if_pos rfl]
      rw [noImp_some, noImp_some]
      simp only [noImp, Bool.and_true]
      rw [ihl ha, ihr hb]
      simp
  | case4 v l r hne hv ihl ihr =>
    rcases wfB_inv h with ⟨hl, hr, -⟩ | ⟨hveq, hr, c, hl, hc⟩ | ⟨hvor, a, b, hl, hr, ha, hb⟩
    · exact (hne hl hr).elim
    · subst hveq
      subst hl
      subst hr
      rw [eliminateImplications_node _ _ _ (by tauto), if_neg hv]
      rw [show eliminateImplications none = none from by simp [eliminateImplications]]
      rw [noImp_some, ihl hc]
      simp [noImp]
    · subst hl
      subst hr
      rw [eliminateImplications_node _ _ _ (by tauto), if_neg hv]
      rw [noImp_some, ihl ha, ihr hb]
      have hvne : v != ">" := by
        rcases hvor with rfl | rfl | rfl
        · decide
        · decide
        · exact absurd rfl hv
      simp [hvne]

/-- Components of `noImp` on a node. -/
theorem noImp_inv {v : String} {l r : Option Node} (h : noImp (some ⟨v, l, r⟩) = true) :
    v ≠ ">" ∧ noImp l = true ∧ noImp r = true := by
  rw [noImp_some] at h
  simp only [Bool.and_eq_true, bne_iff_ne, ne_eq] at h
  exact ⟨h.1.1, h.1.2, h.2⟩

/-- Unfolding lemma: `moveNegations` on a leaf. -/
theorem moveNegations_leaf (v : String) :
    moveNegations (some ⟨v, none, none⟩) = some ⟨v, none, none⟩ := by
  simp [moveNegations]

/-- Unfolding lemma: `moveNegations` on a double negation. -/
theorem moveNegations_nn (cl r1 r2 : Option Node) :
    moveNegations (some ⟨"~", some ⟨"~", cl, r1⟩, r2⟩) = moveNegations cl := by
  simp [moveNegations]

/-- Unfolding lemma: `moveNegations` on a negated disjunction. -/
theorem moveNegations_nplus (cl cr r : Option Node) :
    moveNegations (some ⟨"~", some ⟨"+", cl, cr⟩, r⟩) =
      some ⟨"*", moveNegations (some ⟨"~", cl, none⟩), moveNegations (some ⟨"~", cr, none⟩)⟩ := by
  simp [moveNegations]

/-- Unfolding lemma: `moveNegations` on a negated conjunction. -/
theorem moveNegations_nstar (cl cr r : Option Node) :
    moveNegations (some ⟨"~", some ⟨"*", cl, cr⟩, r⟩) =
      some ⟨"+", moveNegations (some ⟨"~", cl, none⟩), moveNegations (some ⟨"~", cr, none⟩)⟩ := by
  simp [moveNegations]

/-- Unfolding lemma: `moveNegations` on a non-negation node. -/
theorem moveNegations_other {v : String} (l r : Option Node) (hv : v ≠ "~")
    (hne : ¬(l = none ∧ r = none)) :
    moveNegations (some ⟨v, l, r⟩) = some ⟨v, moveNegations l, moveNegations r⟩ := by
  rcases l with - | a
  · rcases r with - | b
    · exact absurd ⟨rfl, rfl⟩ hne
    · simp [moveNegations, hv]
  · rcases r with - | b <;> simp [moveNegations, hv]

/-- On a well-formed tree without implications, `moveNegations` returns a
well-formed implication-free tree in negation normal form. -/
theorem moveNegations_wf_nnf {t : Option Node} (hwf : wfB t = true) (hni : noImp t = true) :
    wfB (moveNegations t) = true ∧ noImp (moveNegations t) = true ∧
      isNNF (moveNegations t) = true := by
  induction t using moveNegations.induct with
  | case1 => simp [wfB] at hwf
  | case2 v =>
    rw [moveNegations_leaf]
    rw [wfB_leaf_eq, Bool.not_eq_true'] at hwf
    obtain ⟨-, -, -, h4⟩ := isOperator_eq_false hwf
    refine ⟨by rw [wfB_leaf_eq, hwf]; rfl, hni, ?_⟩
    rw [isNNF_other h4]
    simp [isNNF]
  | case3 cl right right1 ih =>
    rcases wfB_inv hwf with ⟨hl, -, -⟩ | ⟨-, hr, c, hl, hc⟩ | ⟨hvor, a, b, -, -, -, -⟩
    · simp at hl
    · subst hr
      obtain rfl : c = ⟨"~", cl, right⟩ := (Option.some.inj hl).symm
      obtain ⟨-, hni1, -⟩ := noImp_inv hni
      obtain ⟨-, hni2, -⟩ := noImp_inv hni1
      rcases wfB_inv hc with ⟨-, -, hop⟩ | ⟨-, hr2, c2, hl2, hc2⟩ | ⟨hvor2, _, _, _, _, _, _⟩
      · exact absurd hop (by decide)
      · rw [moveNegations_nn]
        exact ih (hl2.symm ▸ hc2) hni2
      · rcases hvor2 with h | h | h <;> exact absurd h (by decide)
    · rcases hvor with h | h | h <;> exact absurd h (by decide)
  | case4 cl cr right ih1 ih2 =>
    rcases wfB_inv hwf with ⟨hl, -, -⟩ | ⟨-, hr, c, hl, hc⟩ | ⟨hvor, _, _, _, _, _, _⟩
    · simp at hl
    · subst hr
      obtain rfl : c = ⟨"+", cl, cr⟩ := (Option.some.inj hl).symm
      obtain ⟨-, hni1, -⟩ := noImp_inv hni
      obtain ⟨-, hnicl, hnicr⟩ := noImp_inv hni1
      rcases wfB_inv hc with ⟨-, -, hop⟩ | ⟨hveq, -, -⟩ | ⟨-, a, b, hl2, hr2, ha, hb⟩
      · exact absurd hop (by decide)
      · exact absurd hveq (by decide)
      · subst hl2
        subst hr2
        have hwX : wfB (some ⟨"~", some a, none⟩) = true := by rw [wfB_neg_eq]; exact ha
        have hwY : wfB (some ⟨"~", some b, none⟩) = true := by rw [wfB_neg_eq]; exact hb
        have hnX : noImp (some ⟨"~", some a, none⟩) = true := by
          rw [noImp_some, hnicl]
          simp [noImp]
        have hnY : noImp (some ⟨"~", some b, none⟩) = true := by
          rw [noImp_some, hnicr]
          simp [noImp]
        obtain ⟨w1, n1, f1⟩ := ih1 hwX hnX
        obtain ⟨w2, n2, f2⟩ := ih2 hwY hnY
        obtain ⟨X, hX⟩ := wfB_isSome w1
        obtain ⟨Y, hY⟩ := wfB_isSome w2
        rw [moveNegations_nplus, hX, hY]
        rw [hX] at w1 n1 f1
        rw [hY] at w2 n2 f2
        refine ⟨?_, ?_, ?_⟩
        · rw [wfB_binary_iff]
          exact ⟨Or.inl rfl, w1, w2⟩
        · rw [noImp_some, n1, n2]
          rfl
        · rw [isNNF_other (by decide), f1, f2]
          rfl
    · rcases hvor with h | h | h <;> exact absurd h (by decide)
  | case5 cl cr right ih1 ih2 =>
    rcases wfB_inv hwf with ⟨hl, -, -⟩ | ⟨-, hr, c, hl, hc⟩ | ⟨hvor, _, _, _, _, _, _⟩
    · simp at hl
    · subst hr
      obtain rfl : c = ⟨"*", cl, cr⟩ := (Option.some.inj hl).symm
      obtain ⟨-, hni1, -⟩ := noImp_inv hni
      obtain ⟨-, hnicl, hnicr⟩ := noImp_inv hni1
      rcases wfB_inv hc with ⟨-, -, hop⟩ | ⟨hveq, -, -⟩ | ⟨-, a, b, hl2, hr2, ha, hb⟩
      · exact absurd hop (by decide)
      · exact absurd hveq (by decide)
      · subst hl2
        subst hr2
        have hwX : wfB (some ⟨"~", some a, none⟩) = true := by rw [wfB_neg_eq]; exact ha
        have hwY : wfB (some ⟨"~", some b, none⟩) = true := by rw [wfB_neg_eq]; exact hb
        have hnX : noImp (some ⟨"~", some a, none⟩) = true := by
          rw [noImp_some, hnicl]
          simp [noImp]
        have hnY : noImp (some ⟨"~", some b, none⟩) = true := by
          rw [noImp_some, hnicr]
          simp [noImp]
        obtain ⟨w1, n1, f1⟩ := ih1 hwX hnX
        obtain ⟨w2, n2, f2⟩ := ih2 hwY hnY
        obtain ⟨X, hX⟩ := wfB_isSome w1
        obtain ⟨Y, hY⟩ := wfB_isSome w2
        rw [moveNegations_nstar, hX, hY]
        rw [hX] at w1 n1 f1
        rw [hY] at w2 n2 f2
        refine ⟨?_, ?_, ?_⟩
        · rw [wfB_binary_iff]
          exact ⟨Or.inr (Or.inl rfl), w1, w2⟩
        · rw [noImp_some, n1, n2]
          rfl
        · rw [isNNF_other (by decide), f1, f2]
          rfl
    · rcases hvor with h | h | h <;> exact absurd h (by decide)
  | case6 c r hne1 hne2 hne3 =>
    obtain ⟨cv, cl2, cr2⟩ := c
    rcases wfB_inv hwf with ⟨hl, -, -⟩ | ⟨-, hr, c', hl, hc⟩ | ⟨hvor, _, _, _, _, _, _⟩
    · simp at hl
    · subst hr
      have hcc : wfB (some ⟨cv, cl2, cr2⟩) = true := by rw [hl]; exact hc
      obtain ⟨-, hni1, -⟩ := noImp_inv hni
      rcases wfB_inv hcc with ⟨hcl, hcr, hop⟩ | ⟨hveq, -, -⟩ | ⟨hvor2, a, b, -, -, -, -⟩
      · subst hcl
        subst hcr
        have hlit : isLitTree ⟨"~", some ⟨cv, none, none⟩, none⟩ = true := by
          simp [isLitTree, hop]
        rw [moveNegations_lit hlit]
        refine ⟨hwf, hni, ?_⟩
        rw [isNNF_neg]
        simp [isAtomLeaf, hop]
      · exact (hne1 cl2 cr2 (by rw [hveq])).elim
      · rcases hvor2 with h | h | h
        · exact (hne3 cl2 cr2 (by rw [h])).elim
        · exact (hne2 cl2 cr2 (by rw [h])).elim
        · exact ((noImp_inv hni1).1 h).elim
    · rcases hvor with h | h | h <;> exact absurd h (by decide)
  | case7 right hne =>
    rcases wfB_inv hwf with ⟨-, hr, -⟩ | ⟨-, -, c, hl, -⟩ | ⟨-, a, b, hl, -, -, -⟩
    · exact (hne hr).elim
    · simp at hl
    · simp at hl
  | case8 v l r hne h1 h2 h3 h4 h5 ihl ihr =>
    have hv : v ≠ "~" := by
      intro hveq
      rcases l with - | c
      · exact h5 hveq rfl
      · exact h4 c hveq rfl
    rcases wfB_inv hwf with ⟨hl, hr, -⟩ | ⟨hveq, -, -⟩ | ⟨hvor, a, b, hl, hr, ha, hb⟩
    · exact (hne hl hr).elim
    · exact (hv hveq).elim
    · subst hl
      subst hr
      have hvne : v ≠ ">" := (noImp_inv hni).1
      obtain ⟨-, hnia, hnib⟩ := noImp_inv hni
      obtain ⟨wa, na, fa⟩ := ihl ha hnia
      obtain ⟨wb, nb, fb⟩ := ihr hb hnib
      obtain ⟨X, hX⟩ := wfB_isSome wa
      obtain ⟨Y, hY⟩ := wfB_isSome wb
      rw [moveNegations_other _ _ hv (by simp), hX, hY]
      rw [hX] at wa na fa
      rw [hY] at wb nb fb
      refine ⟨?_, ?_, ?_⟩
      · rw [wfB_binary_iff]
        exact ⟨hvor, wa, wb⟩
      · rw [noImp_some, na, nb]
        simp [hvne]
      · rw [isNNF_other hv, fa, fb]
        rfl

/-- Inversion of `isAtomLeaf`. -/
theorem isAtomLeaf_inv {l : Option Node} (h : isAtomLeaf l = true) :
    ∃ a, l = some ⟨a, none, none⟩ ∧ isOperator a = false := by
  rcases l with - | ⟨v, cl, cr⟩
  · simp [isAtomLeaf] at h
  · rcases cl with - | x
    · rcases cr with - | y
      · rw [show isAtomLeaf (some ⟨v, none, none⟩) = !isOperator v from by simp [isAtomLeaf],
          Bool.not_eq_true'] at h
        exact ⟨v, rfl, h⟩
      · simp [isAtomLeaf] at h
    · simp [isAtomLeaf] at h

/-- `distOr` preserves the NNF invariant. -/
theorem isNNF_distOr {a b : Option Node} (ha : isNNF a = true) (hb : isNNF b = true) :
    isNNF (some (distOr a b)) = true := by
  induction a, b using distOr.induct with
  | case1 al ar b ih1 ih2 =>
    rw [isNNF_other (by decide), Bool.and_eq_true] at ha
    rw [distOr_star_left, isNNF_other (by decide), ih1 ha.1 hb, ih2 ha.2 hb]
    rfl
  | case2 a bl br hnota ih1 ih2 =>
    rw [isNNF_other (by decide), Bool.and_eq_true] at hb
    rw [distOr_star_right _ _ _ (fun al ar h => hnota al ar h), isNNF_other (by decide),
      ih1 ha hb.1, ih2 ha hb.2]
    rfl
  | case3 a b hnota hnotb =>
    rw [distOr_or a b (fun al ar h => hnota al ar h) (fun bl br h => hnotb bl br h),
      isNNF_other (by decide), ha, hb]
    rfl

/-- `distributeOrOverAnd` preserves the NNF invariant. -/
theorem isNNF_distributeOrOverAnd {t : Option Node} (h : isNNF t = true) :
    isNNF (distributeOrOverAnd t) = true := by
  induction t using distributeOrOverAnd.induct with
  | case1 => simpa [distributeOrOverAnd] using h
  | case2 v => rwa [distributeOrOverAnd_leaf]
  | case3 l r hne ihl ihr =>
    rw [isNNF_other (by decide), Bool.and_eq_true] at h
    rw [distributeOrOverAnd_node _ _ _ (by tauto), if_pos rfl]
    exact isNNF_distOr (ihl h.1) (ihr h.2)
  | case4 v l r hne hv ihl ihr =>
    by_cases hneg : v = "~"
    · subst hneg
      rw [isNNF_neg, Bool.and_eq_true] at h
      obtain ⟨hal, hrn⟩ := h
      obtain ⟨a, rfl, hopa⟩ := isAtomLeaf_inv hal
      have hr : r = none := Option.isNone_iff_eq_none.mp hrn
      subst hr
      rw [distributeOrOverAnd_node _ _ _ (by simp), if_neg hv, distributeOrOverAnd_leaf,
        show distributeOrOverAnd none = none from by simp [distributeOrOverAnd]]
      rw [isNNF_neg]
      simp [isAtomLeaf, hopa]
    · rw [isNNF_other hneg, Bool.and_eq_true] at h
      rw [distributeOrOverAnd_node _ _ _ (by tauto), if_neg hv, isNNF_other hneg,
        ihl h.1, ihr h.2]
      rfl

/-- C3: for every well-formed parse tree, after the `moveNegations` pass of
`convertToCNF` (which runs after `eliminateImplications`), and still after
the subsequent `distributeOrOverAnd` pass, every `~` node in the resulting
tree has an atom leaf as its only child — no `~` node has a non-atom child. -/
theorem c3_nnf_invariant (t : Option Node) (h : wfB t = true) :
    isNNF (moveNegations (eliminateImplications t)) = true ∧
      isNNF (convertToCNF t) = true := by
  have h1 := wfB_eliminateImplications h
  have h2 := noImp_eliminateImplications h
  obtain ⟨-, -, hnnf⟩ := moveNegations_wf_nnf h1 h2
  exact ⟨hnnf, isNNF_distributeOrOverAnd hnnf⟩

/-- Witness for C3 on the tree of `p > q`. -/
theorem c3_nnf_invariant_witness :
    wfB (some ⟨">", some ⟨"p", none, none⟩, some ⟨"q", none, none⟩⟩) = true ∧
      isNNF (moveNegations (eliminateImplications
        (some ⟨">", some ⟨"p", none, none⟩, some ⟨"q", none, none⟩⟩))) = true ∧
      isNNF (convertToCNF
        (some ⟨">", some ⟨"p", none, none⟩, some ⟨"q", none, none⟩⟩)) = true :=
  ⟨by simp [wfB, isOperator],
    (c3_nnf_invariant _ (by simp [wfB, isOperator])).1,
    (c3_nnf_invariant _ (by simp [wfB, isOperator])).2⟩

/-- Membership in a `std::set` insertion. -/
theorem mem_insSorted {a b : String} : ∀ {l : List String},
    b ∈ insSorted a l ↔ b = a ∨ b ∈ l := by
  intro l
  induction l with
  | nil => simp [insSorted]
  | cons c cs ih =>
    by_cases h1 : a < c
    · simp [insSorted, h1]
    · by_cases h2 : a = c
      · subst h2
        simp [insSorted, h1]
      · simp [insSorted, h1, h2, ih]
        tauto

/-- A `std::set` insertion keeps the element list strictly sorted. -/
theorem sorted_insSorted {a : String} : ∀ {l : List String},
    l.Sorted (· < ·) → (insSorted a l).Sorted (· < ·) := by
  intro l
  induction l with
  | nil =>
    intro _
    simp [insSorted]
  | cons c cs ih =>
    intro hs
    rw [List.sorted_cons] at hs
    obtain ⟨hcall, hscs⟩ := hs
    by_cases h1 : a < c
    · rw [show insSorted a (c :: cs) = a :: c :: cs from by simp [insSorted, h1]]
      rw [List.sorted_cons]
      refine ⟨?_, List.sorted_cons.mpr ⟨hcall, hscs⟩⟩
      intro b hb
      rcases List.mem_cons.1 hb with rfl | hb'
      · exact h1
      · exact lt_trans h1 (hcall b hb')
    · by_cases h2 : a = c
      · rw [show insSorted a (c :: cs) = c :: cs from by simp [insSorted, h1, h2]]
        exact List.sorted_cons.mpr ⟨hcall, hscs⟩
      · rw [show insSorted a (c :: cs) = c :: insSorted a cs from by simp [insSorted, h1, h2]]
        rw [List.sorted_cons]
        refine ⟨?_, ih hscs⟩
        intro b hb
        rcases mem_insSorted.1 hb with rfl | hb'
        · rcases lt_trichotomy b c with h | h | h
          · exact absurd h h1
          · exact absurd h h2
          · exact h
        · exact hcall b hb'

/-- The collected atom set is strictly sorted (hence its atoms are pairwise
distinct). -/
theorem collectAtoms_sorted (t : Option Node) : (collectAtoms t).Sorted (· < ·) := by
  rw [collectAtoms]
  generalize collectAtomsList t = l
  suffices h : ∀ (l init : List String), init.Sorted (· < ·) →
      (l.foldl (fun s a => insSorted a s) init).Sorted (· < ·) by
    exact h l [] (by simp)
  intro l
  induction l with
  | nil =>
    intro init h
    exact h
  | cons a l ih =>
    intro init h
    exact ih _ (sorted_insSorted h)

/-- `rowBit` is the claimed bit of the row index. -/
theorem rowBit_eq_testBit (i n j : Nat) : rowBit i n j = Nat.testBit i (n - 1 - j) := by
  rw [rowBit, Nat.and_one_is_mod, Nat.testBit_to_div_mod, Nat.shiftRight_eq_div_pow]
  have harith : n - j - 1 = n - 1 - j := by omega
  rw [harith]
  by_cases h : i / 2 ^ (n - 1 - j) % 2 = 1 <;> simp [h]

/-- Below the `int` shift bound, the wrapped total is exactly `2^n`. -/
theorem totalRows_toNat {n : Nat} (hb : n ≤ 30) : (totalRows n).toNat = 2 ^ n := by
  have h31 : 2 ^ n < 2 ^ 31 := Nat.pow_lt_pow_right (by omega) (by omega)
  have h32 : 2 ^ n < 2 ^ 32 := lt_trans h31 (by norm_num)
  rw [totalRows, Nat.mod_eq_of_lt h32, if_pos h31]
  rfl

/-- At `n = 31` the wrapped total is the negative value `-2^31`, so the row
loop runs zero times. -/
theorem totalRows_31 : (totalRows 31).toNat = 0 := by decide

/-- Unfolding lemma for `generateTruthTable` with at least one atom and an
atom count within the `int` shift range. -/
theorem generateTruthTable_eq (root : Node)
    (h : (collectAtoms (some root)).length ≠ 0)
    (hb : (collectAtoms (some root)).length ≤ 30) :
    generateTruthTable root =
      (List.range (2 ^ (collectAtoms (some root)).length)).map fun i =>
        (((List.range (collectAtoms (some root)).length).map fun j =>
            rowBit i (collectAtoms (some root)).length j),
          evaluateNode (some root) fun a =>
            ((collectAtoms (some root)).indexOf? a).map fun j =>
              rowBit i (collectAtoms (some root)).length j) := by
  rw [generateTruthTable]
  simp [h, totalRows_toNat hb]

/-- The per-row bit vectors are injective on the row indices. -/
theorem rowBits_inj {n : Nat} {x y : Nat} (hx : x < 2 ^ n) (hy : y < 2 ^ n)
    (h : ((List.range n).map fun j => rowBit x n j)
        = (List.range n).map fun j => rowBit y n j) : x = y := by
  rw [List.map_inj_left] at h
  refine Nat.eq_of_testBit_eq fun k => ?_
  by_cases hk : k < n
  · have hj : n - 1 - k ∈ List.range n := List.mem_range.mpr (by omega)
    have := h _ hj
    rw [rowBit_eq_testBit, rowBit_eq_testBit] at this
    have harith : n - 1 - (n - 1 - k) = k := by omega
    rwa [harith] at this
  · have hx' : x < 2 ^ k :=
      lt_of_lt_of_le hx (Nat.pow_le_pow_right (by omega) (by omega))
    have hy' : y < 2 ^ k :=
      lt_of_lt_of_le hy (Nat.pow_le_pow_right (by omega) (by omega))
    rw [Nat.testBit_eq_false_of_lt hx', Nat.testBit_eq_false_of_lt hy']

/-- C8 (counterexample): a well-formed OR chain over 31 distinct atoms.  The
C++ computes `int total = 1 << n`, which for `n = 31` wraps to the negative
value `-2^31`, so the row loop runs zero times and the generated truth table
is empty — not the `2^31` rows the claim asserts. -/
theorem c8_counterexample_int_wrap :
    wfB (some (orChain atoms31)) = true ∧
      (collectAtoms (some (orChain atoms31))).length = 31 ∧
      generateTruthTable (orChain atoms31) = [] ∧
      (generateTruthTable (orChain atoms31)).length ≠ 2 ^ 31 := by
  have hlist : collectAtomsList (some (orChain atoms31)) = atoms31 := by
    simp [atoms31, orChain, collectAtomsList, isOperator]
  have hlen : (collectAtoms (some (orChain atoms31))).length = 31 := by
    rw [collectAtoms, hlist]
    simp +decide [atoms31, insSorted]
  have htab : generateTruthTable (orChain atoms31) = [] := by
    rw [generateTruthTable]
    simp [hlen, totalRows_31]
  refine ⟨?_, hlen, htab, ?_⟩
  · simp [atoms31, orChain, wfB, isOperator]
  · rw [htab]
    decide

/-- C8 (amended): for every well-formed tree, the truth table has the
claimed shape as long as the atom count stays within the C++ `int` shift
range: no rows when the tree has no atoms; with `1 ≤ n ≤ 30` distinct atoms,
exactly `2^n` rows whose assignments are pairwise distinct, atom columns
sorted strictly ascending by name, and in row `i` the `j`-th atom's value is
bit `n-1-j` of `i`.  (For `n ≥ 31` the 32-bit `int total = 1 << n` wraps to
a non-positive value and no rows are produced, see
`c8_counterexample_int_wrap`.) -/
theorem c8_truth_table_shape (root : Node) (_hwf : wfB (some root) = true) :
    ((collectAtoms (some root)).length = 0 → generateTruthTable root = []) ∧
      (collectAtoms (some root)).Sorted (· < ·) ∧
      (1 ≤ (collectAtoms (some root)).length →
        (collectAtoms (some root)).length ≤ 30 →
        (generateTruthTable root).length = 2 ^ (collectAtoms (some root)).length ∧
          ((generateTruthTable root).map Prod.fst).Nodup ∧
          ∀ i j, i < 2 ^ (collectAtoms (some root)).length →
            j < (collectAtoms (some root)).length →
            ∃ row, (generateTruthTable root)[i]? = some row ∧
              row.1[j]? =
                some (Nat.testBit i ((collectAtoms (some root)).length - 1 - j))) := by
  refine ⟨?_, collectAtoms_sorted _, ?_⟩
  · intro h
    rw [generateTruthTable]
    simp [h]
  · intro hn hb
    have hne : (collectAtoms (some root)).length ≠ 0 := by omega
    rw [generateTruthTable_eq root hne hb]
    refine ⟨by simp, ?_, ?_⟩
    · rw [List.map_map]
      refine List.Nodup.map_on ?_ (List.nodup_range _)
      intro x hx y hy hxy
      simp only [Function.comp] at hxy
      exact rowBits_inj (List.mem_range.mp hx) (List.mem_range.mp hy) hxy
    · intro i j hi hj
      rw [List.getElem?_map, List.getElem?_range hi, Option.map_some']
      refine ⟨_, rfl, ?_⟩
      simp only [List.getElem?_map, List.getElem?_range hj, Option.map_some']
      rw [rowBit_eq_testBit]

/-- Witness for C8 (amended) on the tree of `q > p`. -/
theorem c8_truth_table_shape_witness :
    wfB (some ⟨">", some ⟨"q", none, none⟩, some ⟨"p", none, none⟩⟩) = true ∧
      (generateTruthTable ⟨">", some ⟨"q", none, none⟩, some ⟨"p", none, none⟩⟩).length
          = 2 ^ (collectAtoms (some ⟨">", some ⟨"q", none, none⟩,
              some ⟨"p", none, none⟩⟩)).length :=
  ⟨by simp [wfB, isOperator],
    ((c8_truth_table_shape ⟨">", some ⟨"q", none, none⟩, some ⟨"p", none, none⟩⟩
      (by simp [wfB, isOperator])).2.2 (by
        simp [collectAtoms, collectAtomsList, insSorted, isOperator]
        decide)
      (by
        simp [collectAtoms, collectAtomsList, insSorted, isOperator]
        decide)).1⟩

/-- Unfolding lemma: `semO` on a leaf. -/
theorem semO_leaf (v : String) (w : String → Bool) :
    semO (some ⟨v, none, none⟩) w = w v := by
  simp [semO]

/-- Unfolding lemma: `semO` on a negation node. -/
theorem semO_neg (l r : Option Node) (h : ¬(l = none ∧ r = none)) (w : String → Bool) :
    semO (some ⟨"~", l, r⟩) w = !semO l w := by
  rcases l with - | a
  · rcases r with - | b
    · exact absurd ⟨rfl, rfl⟩ h
    · simp [semO]
  · rcases r with - | b <;> simp [semO]

/-- Unfolding lemma: `semO` on a conjunction node. -/
theorem semO_star (l r : Option Node) (h : ¬(l = none ∧ r = none)) (w : String → Bool) :
    semO (some ⟨"*", l, r⟩) w = (semO l w && semO r w) := by
  rcases l with - | a
  · rcases r with - | b
    · exact absurd ⟨rfl, rfl⟩ h
    · simp [semO]
  · rcases r with - | b <;> simp [semO]

/-- Unfolding lemma: `semO` on a disjunction node. -/
theorem semO_plus (l r : Option Node) (h : ¬(l = none ∧ r = none)) (w : String → Bool) :
    semO (some ⟨"+", l, r⟩) w = (semO l w || semO r w) := by
  rcases l with - | a
  · rcases r with - | b
    · exact absurd ⟨rfl, rfl⟩ h
    · simp [semO]
  · rcases r with - | b <;> simp [semO]

/-- Unfolding lemma: `semO` on an implication node. -/
theorem semO_gt (l r : Option Node) (h : ¬(l = none ∧ r = none)) (w : String → Bool) :
    semO (some ⟨">", l, r⟩) w = (!semO l w || semO r w) := by
  rcases l with - | a
  · rcases r with - | b
    · exact absurd ⟨rfl, rfl⟩ h
    · simp [semO]
  · rcases r with - | b <;> simp [semO]

/-- Unfolding lemma: `collectAtomsList` on a leaf. -/
theorem collectAtomsList_leaf (v : String) :
    collectAtomsList (some ⟨v, none, none⟩) = if isOperator v then [] else [v] := by
  simp [collectAtomsList]

/-- Unfolding lemma: `collectAtomsList` on a non-leaf node. -/
theorem collectAtomsList_node (v : String) (l r : Option Node) (h : ¬(l = none ∧ r = none)) :
    collectAtomsList (some ⟨v, l, r⟩) = collectAtomsList l ++ collectAtomsList r := by
  rcases l with - | a
  · rcases r with - | b
    · exact absurd ⟨rfl, rfl⟩ h
    · simp [collectAtomsList]
  · rcases r with - | b <;> simp [collectAtomsList]

/-- On a well-formed tree, under an assignment that covers all its atoms
(`values a = some (w a)` on each atom `a`), `evaluate` succeeds and computes
the total semantics `semO`. -/
theorem evaluate_eq_semO (t : Option Node) (values : String → Option Bool)
    (w : String → Bool) (hwf : wfB t = true)
    (hcomp : ∀ a ∈ collectAtomsList t, values a = some (w a)) :
    evaluate t values = some (semO t w) := by
  induction t, w using semO.induct with
  | case1 w => simp [wfB] at hwf
  | case2 v w =>
    rw [wfB_leaf_eq, Bool.not_eq_true'] at hwf
    have hv : values v = some (w v) := by
      apply hcomp
      rw [collectAtomsList_leaf, hwf]
      simp
    simp [evaluate, semO, hv]
  | case3 l r w hne ihl =>
    rcases wfB_inv hwf with ⟨hl, hr, -⟩ | ⟨-, hr, c, hl, hc⟩ | ⟨hvor, _, _, _, _, _, _⟩
    · exact (hne hl hr).elim
    · subst hr
      subst hl
      have hcomp' : ∀ a ∈ collectAtomsList (some c), values a = some (w a) := by
        intro a ha
        apply hcomp
        rw [collectAtomsList_node _ _ _ (by simp)]
        exact List.mem_append_left _ ha
      have heval := ihl hc hcomp'
      rw [semO_neg _ _ (by simp)]
      rw [show evaluate (some ⟨"~", some c, none⟩) values
          = (match evaluate (some c) values with
             | none => none
             | some a => some (!a)) from by simp [evaluate]]
      rw [heval]
    · rcases hvor with h | h | h <;> exact absurd h (by decide)
  | case4 l r w hne hv1 ihl ihr =>
    rcases wfB_inv hwf with ⟨hl, hr, -⟩ | ⟨hveq, -, -⟩ | ⟨-, a, b, hl, hr, ha, hb⟩
    · exact (hne hl hr).elim
    · exact absurd hveq (by decide)
    · subst hl
      subst hr
      have hcl : ∀ x ∈ collectAtomsList (some a), values x = some (w x) := by
        intro x hx
        apply hcomp
        rw [collectAtomsList_node _ _ _ (by simp)]
        exact List.mem_append_left _ hx
      have hcr : ∀ x ∈ collectAtomsList (some b), values x = some (w x) := by
        intro x hx
        apply hcomp
        rw [collectAtomsList_node _ _ _ (by simp)]
        exact List.mem_append_right _ hx
      have hevl := ihl ha hcl
      have hevr := ihr hb hcr
      rw [semO_star _ _ (by simp)]
      rw [show evaluate (some ⟨"*", some a, some b⟩) values
          = (match evaluate (some a) values with
             | none => none
             | some x => if x then evaluate (some b) values else some false) from by
        simp [evaluate]]
      rw [hevl]
      cases hsa : semO (some a) w
      · simp
      · simp [hevr]
  | case5 l r w hne hv1 hv2 ihl ihr =>
    rcases wfB_inv hwf with ⟨hl, hr, -⟩ | ⟨hveq, -, -⟩ | ⟨-, a, b, hl, hr, ha, hb⟩
    · exact (hne hl hr).elim
    · exact absurd hveq (by decide)
    · subst hl
      subst hr
      have hcl : ∀ x ∈ collectAtomsList (some a), values x = some (w x) := by
        intro x hx
        apply hcomp
        rw [collectAtomsList_node _ _ _ (by simp)]
        exact List.mem_append_left _ hx
      have hcr : ∀ x ∈ collectAtomsList (some b), values x = some (w x) := by
        intro x hx
        apply hcomp
        rw [collectAtomsList_node _ _ _ (by simp)]
        exact List.mem_append_right _ hx
      have hevl := ihl ha hcl
      have hevr := ihr hb hcr
      rw [semO_plus _ _ (by simp)]
      rw [show evaluate (some ⟨"+", some a, some b⟩) values
          = (match evaluate (some a) values with
             | none => none
             | some x => if x then some true else evaluate (some b) values) from by
        simp [evaluate]]
      rw [hevl]
      cases hsa : semO (some a) w
      · simp [hevr]
      · simp
  | case6 l r w hne hv1 hv2 hv3 ihl ihr =>
    rcases wfB_inv hwf with ⟨hl, hr, -⟩ | ⟨hveq, -, -⟩ | ⟨-, a, b, hl, hr, ha, hb⟩
    · exact (hne hl hr).elim
    · exact absurd hveq (by decide)
    · subst hl
      subst hr
      have hcl : ∀ x ∈ collectAtomsList (some a), values x = some (w x) := by
        intro x hx
        apply hcomp
        rw [collectAtomsList_node _ _ _ (by simp)]
        exact List.mem_append_left _ hx
      have hcr : ∀ x ∈ collectAtomsList (some b), values x = some (w x) := by
        intro x hx
        apply hcomp
        rw [collectAtomsList_node _ _ _ (by simp)]
        exact List.mem_append_right _ hx
      have hevl := ihl ha hcl
      have hevr := ihr hb hcr
      rw [semO_gt _ _ (by simp)]
      rw [show evaluate (some ⟨">", some a, some b⟩) values
          = (match evaluate (some a) values with
             | none => none
             | some x => if x then evaluate (some b) values else some true) from by
        simp [evaluate]]
      rw [hevl]
      cases hsa : semO (some a) w
      · simp
      · simp [hevr]
  | case7 v l r w hne hv1 hv2 hv3 hv4 =>
    rcases wfB_inv hwf with ⟨hl, hr, -⟩ | ⟨hveq, -, -⟩ | ⟨hvor, _, _, _, _, _, _⟩
    · exact (hne hl hr).elim
    · exact (hv1 hveq).elim
    · rcases hvor with h | h | h
      · exact (hv2 h).elim
      · exact (hv3 h).elim
      · exact (hv4 h).elim

/-- `distOr` on two well-formed trees yields a well-formed tree. -/
theorem wfB_distOr {a b : Option Node} (ha : wfB a = true) (hb : wfB b = true) :
    wfB (some (distOr a b)) = true := by
  induction a, b using distOr.induct with
  | case1 al ar b ih1 ih2 =>
    rcases wfB_inv ha with ⟨-, -, hop⟩ | ⟨hveq, -, -⟩ | ⟨-, x, y, hl, hr, hx, hy⟩
    · exact absurd hop (by decide)
    · exact absurd hveq (by decide)
    · subst hl
      subst hr
      rw [distOr_star_left, wfB_binary_iff]
      exact ⟨Or.inl rfl, ih1 hx hb, ih2 hy hb⟩
  | case2 a bl br hnota ih1 ih2 =>
    rcases wfB_inv hb with ⟨-, -, hop⟩ | ⟨hveq, -, -⟩ | ⟨-, x, y, hl, hr, hx, hy⟩
    · exact absurd hop (by decide)
    · exact absurd hveq (by decide)
    · subst hl
      subst hr
      rw [distOr_star_right _ _ _ (fun al ar h => hnota al ar h), wfB_binary_iff]
      exact ⟨Or.inl rfl, ih1 ha hx, ih2 ha hy⟩
  | case3 a b hnota hnotb =>
    obtain ⟨a₀, rfl⟩ := wfB_isSome ha
    obtain ⟨b₀, rfl⟩ := wfB_isSome hb
    rw [distOr_or _ _ (fun al ar h => hnota al ar h) (fun bl br h => hnotb bl br h),
      wfB_binary_iff]
    exact ⟨Or.inr (Or.inl rfl), ha, hb⟩

/-- `distributeOrOverAnd` preserves well-formedness. -/
theorem wfB_distributeOrOverAnd {t : Option Node} (hwf : wfB t = true) :
    wfB (distributeOrOverAnd t) = true := by
  induction t using distributeOrOverAnd.induct with
  | case1 => simp [wfB] at hwf
  | case2 v => rwa [distributeOrOverAnd_leaf]
  | case3 l r hne ihl ihr =>
    rcases wfB_inv hwf with ⟨hl, hr, -⟩ | ⟨hveq, -, -⟩ | ⟨-, a, b, hl, hr, ha, hb⟩
    · exact (hne hl hr).elim
    · exact absurd hveq (by decide)
    · subst hl
      subst hr
      rw [distributeOrOverAnd_node _ _ _ (by tauto), if_pos rfl]
      exact wfB_distOr (ihl ha) (ihr hb)
  | case4 v l r hne hv ihl ihr =>
    rcases wfB_inv hwf with ⟨hl, hr, -⟩ | ⟨hveq, hr, c, hl, hc⟩ | ⟨hvor, a, b, hl, hr, ha, hb⟩
    · exact (hne hl hr).elim
    · subst hveq
      subst hl
      subst hr
      rw [distributeOrOverAnd_node _ _ _ (by tauto), if_neg hv,
        show distributeOrOverAnd none = none from by simp [distributeOrOverAnd]]
      obtain ⟨c', hc'⟩ : ∃ x, distributeOrOverAnd (some c) = some x := by
        rcases hh : distributeOrOverAnd (some c) with - | x
        · rw [distributeOrOverAnd_eq_none_iff] at hh
          exact absurd hh (by simp)
        · exact ⟨x, rfl⟩
      rw [hc', wfB_neg_eq, ← hc']
      exact ihl hc
    · subst hl
      subst hr
      rw [distributeOrOverAnd_node _ _ _ (by tauto), if_neg hv]
      obtain ⟨a', ha'⟩ : ∃ x, distributeOrOverAnd (some a) = some x := by
        rcases hh : distributeOrOverAnd (some a) with - | x
        · rw [distributeOrOverAnd_eq_none_iff] at hh
          exact absurd hh (by simp)
        · exact ⟨x, rfl⟩
      obtain ⟨b', hb'⟩ : ∃ x, distributeOrOverAnd (some b) = some x := by
        rcases hh : distributeOrOverAnd (some b) with - | x
        · rw [distributeOrOverAnd_eq_none_iff] at hh
          exact absurd hh (by simp)
        · exact ⟨x, rfl⟩
      rw [ha', hb', wfB_binary_iff]
      exact ⟨hvor, ha' ▸ ihl ha, hb' ▸ ihr hb⟩

/-- `eliminateImplications` preserves the total semantics on well-formed
trees: `A > B` becomes `(~A) + B`, which denotes the same boolean. -/
theorem semO_eliminateImplications {t : Option Node} (hwf : wfB t = true)
    (w : String → Bool) : semO (eliminateImplications t) w = semO t w := by
  induction t using eliminateImplications.induct with
  | case1 => simp [wfB] at hwf
  | case2 v => rw [eliminateImplications_leaf]
  | case3 l r hne ihl ihr =>
    rcases wfB_inv hwf with ⟨hl, hr, -⟩ | ⟨hveq, -, -⟩ | ⟨-, a, b, hl, hr, ha, hb⟩
    · exact (hne hl hr).elim
    · exact absurd hveq (by decide)
    · subst hl
      subst hr
      rw [eliminateImplications_node _ _ _ (by tauto), if_pos rfl]
      obtain ⟨a', ha'⟩ := eliminateImplications_isSome a
      obtain ⟨b', hb'⟩ := eliminateImplications_isSome b
      rw [ha', hb', semO_plus _ _ (by simp), semO_neg _ _ (by simp), semO_gt _ _ (by simp)]
      have h1 : semO (some a') w = semO (some a) w := by
        rw [← ha']
        exact ihl ha
      have h2 : semO (some b') w = semO (some b) w := by
        rw [← hb']
        exact ihr hb
      rw [h1, h2]
  | case4 v l r hne hv ihl ihr =>
    rcases wfB_inv hwf with ⟨hl, hr, -⟩ | ⟨hveq, hr, c, hl, hc⟩ | ⟨hvor, a, b, hl, hr, ha, hb⟩
    · exact (hne hl hr).elim
    · subst hveq
      subst hl
      subst hr
      rw [eliminateImplications_node _ _ _ (by tauto), if_neg hv,
        show eliminateImplications none = none from by simp [eliminateImplications]]
      obtain ⟨c', hc'⟩ := eliminateImplications_isSome c
      rw [hc', semO_neg _ _ (by simp), semO_neg _ _ (by simp), ← hc', ihl hc]
    · subst hl
      subst hr
      rw [eliminateImplications_node _ _ _ (by tauto), if_neg hv]
      obtain ⟨a', ha'⟩ := eliminateImplications_isSome a
      obtain ⟨b', hb'⟩ := eliminateImplications_isSome b
      have h1 : semO (some a') w = semO (some a) w := by
        rw [← ha']
        exact ihl ha
      have h2 : semO (some b') w = semO (some b) w := by
        rw [← hb']
        exact ihr hb
      rcases hvor with rfl | rfl | rfl
      · rw [ha', hb', semO_star _ _ (by simp), semO_star _ _ (by simp), h1, h2]
      · rw [ha', hb', semO_plus _ _ (by simp), semO_plus _ _ (by simp), h1, h2]
      · exact absurd rfl hv

/-- `moveNegations` preserves the total semantics on well-formed
implication-free trees (double negation and De Morgan). -/
theorem semO_moveNegations {t : Option Node} (hwf : wfB t = true)
    (hni : noImp t = true) (w : String → Bool) :
    semO (moveNegations t) w = semO t w := by
  induction t using moveNegations.induct with
  | case1 => simp [wfB] at hwf
  | case2 v => rw [moveNegations_leaf]
  | case3 cl right right1 ih =>
    rcases wfB_inv hwf with ⟨hl, -, -⟩ | ⟨-, hr, c, hl, hc⟩ | ⟨hvor, _, _, _, _, _, _⟩
    · simp at hl
    · subst hr
      obtain rfl : c = ⟨"~", cl, right⟩ := (Option.some.inj hl).symm
      obtain ⟨-, hni1, -⟩ := noImp_inv hni
      obtain ⟨-, hni2, -⟩ := noImp_inv hni1
      rcases wfB_inv hc with ⟨-, -, hop⟩ | ⟨-, hr2, c2, hl2, hc2⟩ | ⟨hvor2, _, _, _, _, _, _⟩
      · exact absurd hop (by decide)
      · subst hr2
        rw [moveNegations_nn, ih (hl2.symm ▸ hc2) hni2,
          semO_neg _ _ (by simp), semO_neg _ _ (by simp [hl2]), Bool.not_not]
      · rcases hvor2 with h | h | h <;> exact absurd h (by decide)
    · rcases hvor with h | h | h <;> exact absurd h (by decide)
  | case4 cl cr right ih1 ih2 =>
    rcases wfB_inv hwf with ⟨hl, -, -⟩ | ⟨-, hr, c, hl, hc⟩ | ⟨hvor, _, _, _, _, _, _⟩
    · simp at hl
    · subst hr
      obtain rfl : c = ⟨"+", cl, cr⟩ := (Option.some.inj hl).symm
      obtain ⟨-, hni1, -⟩ := noImp_inv hni
      obtain ⟨-, hnicl, hnicr⟩ := noImp_inv hni1
      rcases wfB_inv hc with ⟨-, -, hop⟩ | ⟨hveq, -, -⟩ | ⟨-, a, b, hl2, hr2, ha, hb⟩
      · exact absurd hop (by decide)
      · exact absurd hveq (by decide)
      · subst hl2
        subst hr2
        have hwX : wfB (some ⟨"~", some a, none⟩) = true := by rw [wfB_neg_eq]; exact ha
        have hwY : wfB (some ⟨"~", some b, none⟩) = true := by rw [wfB_neg_eq]; exact hb
        have hnX : noImp (some ⟨"~", some a, none⟩) = true := by
          rw [noImp_some, hnicl]
          simp [noImp]
        have hnY : noImp (some ⟨"~", some b, none⟩) = true := by
          rw [noImp_some, hnicr]
          simp [noImp]
        obtain ⟨wX, -, -⟩ := moveNegations_wf_nnf hwX hnX
        obtain ⟨wY, -, -⟩ := moveNegations_wf_nnf hwY hnY
        obtain ⟨X, hX⟩ := wfB_isSome wX
        obtain ⟨Y, hY⟩ := wfB_isSome wY
        have hsX : semO (some X) w = !semO (some a) w := by
          rw [← hX, ih1 hwX hnX, semO_neg _ _ (by simp)]
        have hsY : semO (some Y) w = !semO (some b) w := by
          rw [← hY, ih2 hwY hnY, semO_neg _ _ (by simp)]
        rw [moveNegations_nplus, hX, hY, semO_star _ _ (by simp), hsX, hsY,
          semO_neg _ _ (by simp), semO_plus _ _ (by simp), Bool.not_or]
    · rcases hvor with h | h | h <;> exact absurd h (by decide)
  | case5 cl cr right ih1 ih2 =>
    rcases wfB_inv hwf with ⟨hl, -, -⟩ | ⟨-, hr, c, hl, hc⟩ | ⟨hvor, _, _, _, _, _, _⟩
    · simp at hl
    · subst hr
      obtain rfl : c = ⟨"*", cl, cr⟩ := (Option.some.inj hl).symm
      obtain ⟨-, hni1, -⟩ := noImp_inv hni
      obtain ⟨-, hnicl, hnicr⟩ := noImp_inv hni1
      rcases wfB_inv hc with ⟨-, -, hop⟩ | ⟨hveq, -, -⟩ | ⟨-, a, b, hl2, hr2, ha, hb⟩
      · exact absurd hop (by decide)
      · exact absurd hveq (by decide)
      · subst hl2
        subst hr2
        have hwX : wfB (some ⟨"~", some a, none⟩) = true := by rw [wfB_neg_eq]; exact ha
        have hwY : wfB (some ⟨"~", some b, none⟩) = true := by rw [wfB_neg_eq]; exact hb
        have hnX : noImp (some ⟨"~", some a, none⟩) = true := by
          rw [noImp_some, hnicl]
          simp [noImp]
        have hnY : noImp (some ⟨"~", some b, none⟩) = true := by
          rw [noImp_some, hnicr]
          simp [noImp]
        obtain ⟨wX, -, -⟩ := moveNegations_wf_nnf hwX hnX
        obtain ⟨wY, -, -⟩ := moveNegations_wf_nnf hwY hnY
        obtain ⟨X, hX⟩ := wfB_isSome wX
        obtain ⟨Y, hY⟩ := wfB_isSome wY
        have hsX : semO (some X) w = !semO (some a) w := by
          rw [← hX, ih1 hwX hnX, semO_neg _ _ (by simp)]
        have hsY : semO (some Y) w = !semO (some b) w := by
          rw [← hY, ih2 hwY hnY, semO_neg _ _ (by simp)]
        rw [moveNegations_nstar, hX, hY, semO_plus _ _ (by simp), hsX, hsY,
          semO_neg _ _ (by simp), semO_star _ _ (by simp), Bool.not_and]
    · rcases hvor with h | h | h <;> exact absurd h (by decide)
  | case6 c r hne1 hne2 hne3 =>
    obtain ⟨cv, cl2, cr2⟩ := c
    rcases wfB_inv hwf with ⟨hl, -, -⟩ | ⟨-, hr, c', hl, hc⟩ | ⟨hvor, _, _, _, _, _, _⟩
    · simp at hl
    · subst hr
      have hcc : wfB (some ⟨cv, cl2, cr2⟩) = true := by rw [hl]; exact hc
      obtain ⟨-, hni1, -⟩ := noImp_inv hni
      rcases wfB_inv hcc with ⟨hcl, hcr, hop⟩ | ⟨hveq, -, -⟩ | ⟨hvor2, a, b, -, -, -, -⟩
      · subst hcl
        subst hcr
        rw [moveNegations_lit (by simp [isLitTree, hop])]
      · exact (hne1 cl2 cr2 (by rw [hveq])).elim
      · rcases hvor2 with h | h | h
        · exact (hne3 cl2 cr2 (by rw [h])).elim
        · exact (hne2 cl2 cr2 (by rw [h])).elim
        · exact ((noImp_inv hni1).1 h).elim
    · rcases hvor with h | h | h <;> exact absurd h (by decide)
  | case7 right hne =>
    rcases wfB_inv hwf with ⟨-, hr, -⟩ | ⟨-, -, c, hl, -⟩ | ⟨-, a, b, hl, -, -, -⟩
    · exact (hne hr).elim
    · simp at hl
    · simp at hl
  | case8 v l r hne h1 h2 h3 h4 h5 ihl ihr =>
    have hv : v ≠ "~" := by
      intro hveq
      rcases l with - | c
      · exact h5 hveq rfl
      · exact h4 c hveq rfl
    rcases wfB_inv hwf with ⟨hl, hr, -⟩ | ⟨hveq, -, -⟩ | ⟨hvor, a, b, hl, hr, ha, hb⟩
    · exact (hne hl hr).elim
    · exact (hv hveq).elim
    · subst hl
      subst hr
      obtain ⟨hvne, hnia, hnib⟩ := noImp_inv hni
      obtain ⟨wa, -, -⟩ := moveNegations_wf_nnf ha hnia
      obtain ⟨wb, -, -⟩ := moveNegations_wf_nnf hb hnib
      obtain ⟨X, hX⟩ := wfB_isSome wa
      obtain ⟨Y, hY⟩ := wfB_isSome wb
      have hsX : semO (some X) w = semO (some a) w := by
        rw [← hX, ihl ha hnia]
      have hsY : semO (some Y) w = semO (some b) w := by
        rw [← hY, ihr hb hnib]
      rw [moveNegations_other _ _ hv (by simp), hX, hY]
      rcases hvor with rfl | rfl | rfl
      · rw [semO_star _ _ (by simp), semO_star _ _ (by simp), hsX, hsY]
      · rw [semO_plus _ _ (by simp), semO_plus _ _ (by simp), hsX, hsY]
      · exact absurd rfl hvne

/-- `distOr` preserves the total semantics on well-formed operands:
distributing OR over AND. -/
theorem semO_distOr {a b : Option Node} (ha : wfB a = true) (hb : wfB b = true)
    (w : String → Bool) :
    semO (some (distOr a b)) w = (semO a w || semO b w) := by
  induction a, b using distOr.induct with
  | case1 al ar b ih1 ih2 =>
    rcases wfB_inv ha with ⟨-, -, hop⟩ | ⟨hveq, -, -⟩ | ⟨-, x, y, hl, hr, hx, hy⟩
    · exact absurd hop (by decide)
    · exact absurd hveq (by decide)
    · subst hl
      subst hr
      rw [distOr_star_left, semO_star _ _ (by simp), ih1 hx hb, ih2 hy hb,
        semO_star _ _ (by simp)]
      have hdist : ∀ x y z : Bool, ((x || z) && (y || z)) = ((x && y) || z) := by decide
      exact hdist _ _ _
  | case2 a bl br hnota ih1 ih2 =>
    rcases wfB_inv hb with ⟨-, -, hop⟩ | ⟨hveq, -, -⟩ | ⟨-, x, y, hl, hr, hx, hy⟩
    · exact absurd hop (by decide)
    · exact absurd hveq (by decide)
    · subst hl
      subst hr
      rw [distOr_star_right _ _ _ (fun al ar h => hnota al ar h), semO_star _ _ (by simp),
        ih1 ha hx, ih2 ha hy, semO_star _ _ (by simp)]
      have hdist : ∀ x y z : Bool, ((z || x) && (z || y)) = (z || (x && y)) := by decide
      exact hdist _ _ _
  | case3 a b hnota hnotb =>
    obtain ⟨a₀, rfl⟩ := wfB_isSome ha
    obtain ⟨b₀, rfl⟩ := wfB_isSome hb
    rw [distOr_or _ _ (fun al ar h => hnota al ar h) (fun bl br h => hnotb bl br h),
      semO_plus _ _ (by simp)]

/-- `distributeOrOverAnd` preserves the total semantics on well-formed
trees. -/
theorem semO_distributeOrOverAnd {t : Option Node} (hwf : wfB t = true)
    (w : String → Bool) : semO (distributeOrOverAnd t) w = semO t w := by
  induction t using distributeOrOverAnd.induct with
  | case1 => simp [wfB] at hwf
  | case2 v => rw [distributeOrOverAnd_leaf]
  | case3 l r hne ihl ihr =>
    rcases wfB_inv hwf with ⟨hl, hr, -⟩ | ⟨hveq, -, -⟩ | ⟨-, a, b, hl, hr, ha, hb⟩
    · exact (hne hl hr).elim
    · exact absurd hveq (by decide)
    · subst hl
      subst hr
      rw [distributeOrOverAnd_node _ _ _ (by tauto), if_pos rfl,
        semO_distOr (wfB_distributeOrOverAnd ha) (wfB_distributeOrOverAnd hb),
        ihl ha, ihr hb, semO_plus _ _ (by simp)]
  | case4 v l r hne hv ihl ihr =>
    rcases wfB_inv hwf with ⟨hl, hr, -⟩ | ⟨hveq, hr, c, hl, hc⟩ | ⟨hvor, a, b, hl, hr, ha, hb⟩
    · exact (hne hl hr).elim
    · subst hveq
      subst hl
      subst hr
      rw [distributeOrOverAnd_node _ _ _ (by tauto), if_neg hv,
        show distributeOrOverAnd none = none from by simp [distributeOrOverAnd]]
      obtain ⟨c', hc'⟩ := wfB_isSome (wfB_distributeOrOverAnd hc)
      rw [hc', semO_neg _ _ (by simp), semO_neg _ _ (by simp), ← hc', ihl hc]
    · subst hl
      subst hr
      rw [distributeOrOverAnd_node _ _ _ (by tauto), if_neg hv]
      obtain ⟨a', ha'⟩ := wfB_isSome (wfB_distributeOrOverAnd ha)
      obtain ⟨b', hb'⟩ := wfB_isSome (wfB_distributeOrOverAnd hb)
      have h1 : semO (some a') w = semO (some a) w := by
        rw [← ha', ihl ha]
      have h2 : semO (some b') w = semO (some b) w := by
        rw [← hb', ihr hb]
      rcases hvor with rfl | rfl | rfl
      · rw [ha', hb', semO_star _ _ (by simp), semO_star _ _ (by simp), h1, h2]
      · exact absurd rfl hv
      · rw [ha', hb', semO_gt _ _ (by simp), semO_gt _ _ (by simp), h1, h2]

/-- Atoms of a `~` wrapper come from the wrapped tree. -/
theorem mem_neg_wrap {u : Option Node} {x : String}
    (h : x ∈ collectAtomsList (some ⟨"~", u, none⟩)) : x ∈ collectAtomsList u := by
  rcases u with - | c
  · rw [collectAtomsList_leaf] at h
    simp [isOperator] at h
  · rw [collectAtomsList_node _ _ _ (by simp)] at h
    simpa [collectAtomsList] using h

/-- `eliminateImplications` introduces no new atoms. -/
theorem mem_collectAtomsList_eliminateImplications {t : Option Node} {x : String}
    (h : x ∈ collectAtomsList (eliminateImplications t)) : x ∈ collectAtomsList t := by
  induction t using eliminateImplications.induct with
  | case1 => simp [eliminateImplications, collectAtomsList] at h
  | case2 v => rwa [eliminateImplications_leaf] at h
  | case3 l r hne ihl ihr =>
    rw [eliminateImplications_node _ _ _ (by tauto), if_pos rfl,
      collectAtomsList_node _ _ _ (by simp)] at h
    rw [collectAtomsList_node _ _ _ (by tauto)]
    rcases List.mem_append.1 h with h' | h'
    · exact List.mem_append_left _ (ihl (mem_neg_wrap h'))
    · exact List.mem_append_right _ (ihr h')
  | case4 v l r hne hv ihl ihr =>
    rw [eliminateImplications_node _ _ _ (by tauto), if_neg hv,
      collectAtomsList_node _ _ _ (by
        rw [eliminateImplications_eq_none_iff, eliminateImplications_eq_none_iff]
        tauto)] at h
    rw [collectAtomsList_node _ _ _ (by tauto)]
    rcases List.mem_append.1 h with h' | h'
    · exact List.mem_append_left _ (ihl h')
    · exact List.mem_append_right _ (ihr h')

/-- On well-formed implication-free trees, `moveNegations` introduces no new
atoms. -/
theorem mem_collectAtomsList_moveNegations {t : Option Node} {x : String}
    (hwf : wfB t = true) (hni : noImp t = true)
    (h : x ∈ collectAtomsList (moveNegations t)) : x ∈ collectAtomsList t := by
  induction t using moveNegations.induct with
  | case1 => simp [wfB] at hwf
  | case2 v => rwa [moveNegations_leaf] at h
  | case3 cl right right1 ih =>
    rcases wfB_inv hwf with ⟨hl, -, -⟩ | ⟨-, hr, c, hl, hc⟩ | ⟨hvor, _, _, _, _, _, _⟩
    · simp at hl
    · subst hr
      obtain rfl : c = ⟨"~", cl, right⟩ := (Option.some.inj hl).symm
      obtain ⟨-, hni1, -⟩ := noImp_inv hni
      obtain ⟨-, hni2, -⟩ := noImp_inv hni1
      rcases wfB_inv hc with ⟨-, -, hop⟩ | ⟨-, hr2, c2, hl2, hc2⟩ | ⟨hvor2, _, _, _, _, _, _⟩
      · exact absurd hop (by decide)
      · subst hr2
        rw [moveNegations_nn] at h
        have hmem := ih (hl2.symm ▸ hc2) hni2 h
        rw [collectAtomsList_node _ _ _ (by simp),
          collectAtomsList_node _ _ _ (by simp [hl2])]
        simpa [collectAtomsList] using hmem
      · rcases hvor2 with h' | h' | h' <;> exact absurd h' (by decide)
    · rcases hvor with h' | h' | h' <;> exact absurd h' (by decide)
  | case4 cl cr right ih1 ih2 =>
    rcases wfB_inv hwf with ⟨hl, -, -⟩ | ⟨-, hr, c, hl, hc⟩ | ⟨hvor, _, _, _, _, _, _⟩
    · simp at hl
    · subst hr
      obtain rfl : c = ⟨"+", cl, cr⟩ := (Option.some.inj hl).symm
      obtain ⟨-, hni1, -⟩ := noImp_inv hni
      obtain ⟨-, hnicl, hnicr⟩ := noImp_inv hni1
      rcases wfB_inv hc with ⟨-, -, hop⟩ | ⟨hveq, -, -⟩ | ⟨-, a, b, hl2, hr2, ha, hb⟩
      · exact absurd hop (by decide)
      · exact absurd hveq (by decide)
      · subst hl2
        subst hr2
        have hwX : wfB (some ⟨"~", some a, none⟩) = true := by rw [wfB_neg_eq]; exact ha
        have hwY : wfB (some ⟨"~", some b, none⟩) = true := by rw [wfB_neg_eq]; exact hb
        have hnX : noImp (some ⟨"~", some a, none⟩) = true := by
          rw [noImp_some, hnicl]
          simp [noImp]
        have hnY : noImp (some ⟨"~", some b, none⟩) = true := by
          rw [noImp_some, hnicr]
          simp [noImp]
        obtain ⟨wX, -, -⟩ := moveNegations_wf_nnf hwX hnX
        obtain ⟨wY, -, -⟩ := moveNegations_wf_nnf hwY hnY
        obtain ⟨X, hX⟩ := wfB_isSome wX
        obtain ⟨Y, hY⟩ := wfB_isSome wY
        rw [moveNegations_nplus, hX, hY, collectAtomsList_node _ _ _ (by simp)] at h
        rw [collectAtomsList_node _ _ _ (by simp),
          collectAtomsList_node _ _ _ (by simp)]
        rcases List.mem_append.1 h with h' | h'
        · have := mem_neg_wrap (ih1 hwX hnX (hX ▸ h'))
          simp [collectAtomsList, this]
        · have := mem_neg_wrap (ih2 hwY hnY (hY ▸ h'))
          simp [collectAtomsList, this]
    · rcases hvor with h' | h' | h' <;> exact absurd h' (by decide)
  | case5 cl cr right ih1 ih2 =>
    rcases wfB_inv hwf with ⟨hl, -, -⟩ | ⟨-, hr, c, hl, hc⟩ | ⟨hvor, _, _, _, _, _, _⟩
    · simp at hl
    · subst hr
      obtain rfl : c = ⟨"*", cl, cr⟩ := (Option.some.inj hl).symm
      obtain ⟨-, hni1, -⟩ := noImp_inv hni
      obtain ⟨-, hnicl, hnicr⟩ := noImp_inv hni1
      rcases wfB_inv hc with ⟨-, -, hop⟩ | ⟨hveq, -, -⟩ | ⟨-, a, b, hl2, hr2, ha, hb⟩
      · exact absurd hop (by decide)
      · exact absurd hveq (by decide)
      · subst hl2
        subst hr2
        have hwX : wfB (some ⟨"~", some a, none⟩) = true := by rw [wfB_neg_eq]; exact ha
        have hwY : wfB (some ⟨"~", some b, none⟩) = true := by rw [wfB_neg_eq]; exact hb
        have hnX : noImp (some ⟨"~", some a, none⟩) = true := by
          rw [noImp_some, hnicl]
          simp [noImp]
        have hnY : noImp (some ⟨"~", some b, none⟩) = true := by
          rw [noImp_some, hnicr]
          simp [noImp]
        obtain ⟨wX, -, -⟩ := moveNegations_wf_nnf hwX hnX
        obtain ⟨wY, -, -⟩ := moveNegations_wf_nnf hwY hnY
        obtain ⟨X, hX⟩ := wfB_isSome wX
        obtain ⟨Y, hY⟩ := wfB_isSome wY
        rw [moveNegations_nstar, hX, hY, collectAtomsList_node _ _ _ (by simp)] at h
        rw [collectAtomsList_node _ _ _ (by simp),
          collectAtomsList_node _ _ _ (by simp)]
        rcases List.mem_append.1 h with h' | h'
        · have := mem_neg_wrap (ih1 hwX hnX (hX ▸ h'))
          simp [collectAtomsList, this]
        · have := mem_neg_wrap (ih2 hwY hnY (hY ▸ h'))
          simp [collectAtomsList, this]
    · rcases hvor with h' | h' | h' <;> exact absurd h' (by decide)
  | case6 c r hne1 hne2 hne3 =>
    obtain ⟨cv, cl2, cr2⟩ := c
    rcases wfB_inv hwf with ⟨hl, -, -⟩ | ⟨-, hr, c', hl, hc⟩ | ⟨hvor, _, _, _, _, _, _⟩
    · simp at hl
    · subst hr
      have hcc : wfB (some ⟨cv, cl2, cr2⟩) = true := by rw [hl]; exact hc
      obtain ⟨-, hni1, -⟩ := noImp_inv hni
      rcases wfB_inv hcc with ⟨hcl, hcr, hop⟩ | ⟨hveq, -, -⟩ | ⟨hvor2, a, b, -, -, -, -⟩
      · subst hcl
        subst hcr
        rwa [moveNegations_lit (by simp [isLitTree, hop])] at h
      · exact (hne1 cl2 cr2 (by rw [hveq])).elim
      · rcases hvor2 with h' | h' | h'
        · exact (hne3 cl2 cr2 (by rw [h'])).elim
        · exact (hne2 cl2 cr2 (by rw [h'])).elim
        · exact ((noImp_inv hni1).1 h').elim
    · rcases hvor with h' | h' | h' <;> exact absurd h' (by decide)
  | case7 right hne =>
    rcases wfB_inv hwf with ⟨-, hr, -⟩ | ⟨-, -, c, hl, -⟩ | ⟨-, a, b, hl, -, -, -⟩
    · exact (hne hr).elim
    · simp at hl
    · simp at hl
  | case8 v l r hne h1 h2 h3 h4 h5 ihl ihr =>
    have hv : v ≠ "~" := by
      intro hveq
      rcases l with - | c
      · exact h5 hveq rfl
      · exact h4 c hveq rfl
    rcases wfB_inv hwf with ⟨hl, hr, -⟩ | ⟨hveq, -, -⟩ | ⟨hvor, a, b, hl, hr, ha, hb⟩
    · exact (hne hl hr).elim
    · exact (hv hveq).elim
    · subst hl
      subst hr
      obtain ⟨-, hnia, hnib⟩ := noImp_inv hni
      obtain ⟨wa, -, -⟩ := moveNegations_wf_nnf ha hnia
      obtain ⟨wb, -, -⟩ := moveNegations_wf_nnf hb hnib
      obtain ⟨X, hX⟩ := wfB_isSome wa
      obtain ⟨Y, hY⟩ := wfB_isSome wb
      rw [moveNegations_other _ _ hv (by simp), hX, hY,
        collectAtomsList_node _ _ _ (by simp)] at h
      rw [collectAtomsList_node _ _ _ (by simp)]
      rcases List.mem_append.1 h with h' | h'
      · exact List.mem_append_left _ (ihl ha hnia (hX ▸ h'))
      · exact List.mem_append_right _ (ihr hb hnib (hY ▸ h'))

/-- `distOr` introduces no new atoms (well-formed operands). -/
theorem mem_collectAtomsList_distOr {a b : Option Node} {x : String}
    (ha : wfB a = true) (hb : wfB b = true)
    (h : x ∈ collectAtomsList (some (distOr a b))) :
    x ∈ collectAtomsList a ∨ x ∈ collectAtomsList b := by
  induction a, b using distOr.induct with
  | case1 al ar b ih1 ih2 =>
    rcases wfB_inv ha with ⟨-, -, hop⟩ | ⟨hveq, -, -⟩ | ⟨-, p, q, hl, hr, hp, hq⟩
    · exact absurd hop (by decide)
    · exact absurd hveq (by decide)
    · subst hl
      subst hr
      rw [distOr_star_left, collectAtomsList_node _ _ _ (by simp)] at h
      rw [collectAtomsList_node _ _ _ (by simp)]
      rcases List.mem_append.1 h with h' | h'
      · rcases ih1 hp hb h' with h'' | h''
        · exact Or.inl (List.mem_append_left _ h'')
        · exact Or.inr h''
      · rcases ih2 hq hb h' with h'' | h''
        · exact Or.inl (List.mem_append_right _ h'')
        · exact Or.inr h''
  | case2 a bl br hnota ih1 ih2 =>
    rcases wfB_inv hb with ⟨-, -, hop⟩ | ⟨hveq, -, -⟩ | ⟨-, p, q, hl, hr, hp, hq⟩
    · exact absurd hop (by decide)
    · exact absurd hveq (by decide)
    · subst hl
      subst hr
      rw [distOr_star_right _ _ _ (fun al ar h' => hnota al ar h'),
        collectAtomsList_node _ _ _ (by simp)] at h
      rw [collectAtomsList_node _ _ _ (by simp)]
      rcases List.mem_append.1 h with h' | h'
      · rcases ih1 ha hp h' with h'' | h''
        · exact Or.inl h''
        · exact Or.inr (List.mem_append_left _ h'')
      · rcases ih2 ha hq h' with h'' | h''
        · exact Or.inl h''
        · exact Or.inr (List.mem_append_right _ h'')
  | case3 a b hnota hnotb =>
    obtain ⟨a₀, rfl⟩ := wfB_isSome ha
    obtain ⟨b₀, rfl⟩ := wfB_isSome hb
    rw [distOr_or _ _ (fun al ar h' => hnota al ar h') (fun bl br h' => hnotb bl br h'),
      collectAtomsList_node _ _ _ (by simp)] at h
    exact List.mem_append.1 h

/-- `distributeOrOverAnd` introduces no new atoms (well-formed tree). -/
theorem mem_collectAtomsList_distributeOrOverAnd {t : Option Node} {x : String}
    (hwf : wfB t = true) (h : x ∈ collectAtomsList (distributeOrOverAnd t)) :
    x ∈ collectAtomsList t := by
  induction t using distributeOrOverAnd.induct with
  | case1 => simp [distributeOrOverAnd, collectAtomsList] at h
  | case2 v => rwa [distributeOrOverAnd_leaf] at h
  | case3 l r hne ihl ihr =>
    rcases wfB_inv hwf with ⟨hl, hr, -⟩ | ⟨hveq, -, -⟩ | ⟨-, a, b, hl, hr, ha, hb⟩
    · exact (hne hl hr).elim
    · exact absurd hveq (by decide)
    · subst hl
      subst hr
      rw [distributeOrOverAnd_node _ _ _ (by tauto), if_pos rfl] at h
      rw [collectAtomsList_node _ _ _ (by tauto)]
      rcases mem_collectAtomsList_distOr (wfB_distributeOrOverAnd ha)
          (wfB_distributeOrOverAnd hb) h with h' | h'
      · exact List.mem_append_left _ (ihl ha h')
      · exact List.mem_append_right _ (ihr hb h')
  | case4 v l r hne hv ihl ihr =>
    rcases wfB_inv hwf with ⟨hl, hr, -⟩ | ⟨hveq, hr, c, hl, hc⟩ | ⟨hvor, a, b, hl, hr, ha, hb⟩
    · exact (hne hl hr).elim
    · subst hveq
      subst hl
      subst hr
      rw [distributeOrOverAnd_node _ _ _ (by tauto), if_neg hv,
        show distributeOrOverAnd none = none from by simp [distributeOrOverAnd]] at h
      have hmem := mem_neg_wrap (u := distributeOrOverAnd (some c)) h
      rw [collectAtomsList_node _ _ _ (by simp)]
      simpa [collectAtomsList] using ihl hc hmem
    · subst hl
      subst hr
      rw [distributeOrOverAnd_node _ _ _ (by tauto), if_neg hv,
        collectAtomsList_node _ _ _ (by
          rw [distributeOrOverAnd_eq_none_iff, distributeOrOverAnd_eq_none_iff]
          tauto)] at h
      rw [collectAtomsList_node _ _ _ (by tauto)]
      rcases List.mem_append.1 h with h' | h'
      · exact List.mem_append_left _ (ihl ha h')
      · exact List.mem_append_right _ (ihr hb h')

/-- C1: CNF conversion preserves semantic equivalence.  For every well-formed
parse tree and every assignment that is complete for the tree's atoms,
evaluating the tree returned by `convertToCNF` (`eliminateImplications`, then
`moveNegations`, then `distributeOrOverAnd`) yields the same boolean as
evaluating the original tree. -/
theorem c1_convertToCNF_preserves_evaluation (t : Option Node)
    (values : String → Option Bool) (hwf : wfB t = true)
    (hcomp : ∀ a ∈ collectAtomsList t, (values a).isSome) :
    ∃ b : Bool, evaluate t values = some b ∧
      evaluate (convertToCNF t) values = some b := by
  have hcomp' : ∀ a ∈ collectAtomsList t,
      values a = some ((fun s => (values s).getD false) a) := by
    intro a ha
    rcases hv : values a with - | b
    · exact absurd (hv ▸ hcomp a ha) (by simp)
    · simp [hv]
  have hwf1 := wfB_eliminateImplications hwf
  have hni1 := noImp_eliminateImplications hwf
  obtain ⟨hwf2, hni2, -⟩ := moveNegations_wf_nnf hwf1 hni1
  have hwf3 : wfB (convertToCNF t) = true := wfB_distributeOrOverAnd hwf2
  have hmem : ∀ a ∈ collectAtomsList (convertToCNF t), a ∈ collectAtomsList t := by
    intro a ha
    exact mem_collectAtomsList_eliminateImplications
      (mem_collectAtomsList_moveNegations hwf1 hni1
        (mem_collectAtomsList_distributeOrOverAnd hwf2 ha))
  have hsem : semO (convertToCNF t) (fun s => (values s).getD false)
      = semO t (fun s => (values s).getD false) := by
    rw [convertToCNF, semO_distributeOrOverAnd hwf2, semO_moveNegations hwf1 hni1,
      semO_eliminateImplications hwf]
  refine ⟨semO t (fun s => (values s).getD false),
    evaluate_eq_semO t values _ hwf hcomp', ?_⟩
  rw [evaluate_eq_semO (convertToCNF t) values _ hwf3
    (fun a ha => hcomp' a (hmem a ha)), hsem]

/-- Witness for C1 on the tree of `p > q` under the all-true assignment. -/
theorem c1_convertToCNF_preserves_evaluation_witness :
    wfB (some ⟨">", some ⟨"p", none, none⟩, some ⟨"q", none, none⟩⟩) = true ∧
      ∃ b : Bool,
        evaluate (some ⟨">", some ⟨"p", none, none⟩, some ⟨"q", none, none⟩⟩)
            (fun _ => some true) = some b ∧
          evaluate (convertToCNF (some ⟨">", some ⟨"p", none, none⟩,
              some ⟨"q", none, none⟩⟩)) (fun _ => some true) = some b :=
  ⟨by simp [wfB, isOperator],
    c1_convertToCNF_preserves_evaluation _ (fun _ => some true)
      (by simp [wfB, isOperator]) (fun a _ => rfl)⟩

end LogicParser
